import Mathlib

/-!
# Verification of the vyb module-tree core

A shallow embedding of the module-tree building, collapsing, rebalancing,
annotation-scheduling and incremental-patching logic of the vyb repository
(packages `workspace/project` and `workspace/summary`), together with proofs
and refutations of the specified properties.

Go pointer-based in-place mutation is rendered functionally: every mutating
pass becomes a function from trees to trees.  Machine integers (`int64`,
`int`) are modelled as `Int`/`Nat`; none of the verified properties involve
overflow (token counts are far below `2^63` in all scenarios considered).
The file system (`fs.FS`) is modelled as a record of pure functions, and the
external collaborators (the tokenizer `getFileTokenCount` and the MD5 hash)
are fields of that record, matching the spec's treatment of them as
deterministic external collaborators.
-/

namespace Vyb

/-- `Annotation` from `workspace/project/annotation.go`: three LLM-provided
strings. -/
structure Annotation where
  externalContext : String
  internalContext : String
  publicContext   : String
deriving DecidableEq, Repr

/-- `FileRef` from package `project`.  The struct declaration itself is not
among the provided sources (only its callers are); the fields are those used
by `filesystem.go`, `update.go` and the spec's data model: name, token count
and content fingerprint.  `LastModified` is omitted: no verified property
reads it. -/
structure FileRef where
  name       : String
  tokenCount : Int
  md5        : String
deriving DecidableEq, Repr

/-- `Module` from package `project` (the generation used by `filesystem.go`,
`annotation.go` and `update.go`): a name, child modules, directly owned
files, an optional annotation, the `localTokenCount` field read and written
by `collapseByTokens`, and a module-level `MD5` read by `mergeAnnotations`. -/
inductive PModule where
  | mk : String → List PModule → List FileRef → Option Annotation → Int → String → PModule
deriving Repr

namespace PModule

def name : PModule → String
  | .mk n _ _ _ _ _ => n

def modules : PModule → List PModule
  | .mk _ ms _ _ _ _ => ms

def files : PModule → List FileRef
  | .mk _ _ fs _ _ _ => fs

def annotation : PModule → Option Annotation
  | .mk _ _ _ a _ _ => a

def localTokenCount : PModule → Int
  | .mk _ _ _ _ t _ => t

def md5 : PModule → String
  | .mk _ _ _ _ _ h => h

end PModule

mutual

/-- Structural decidable equality for `PModule`. -/
def pmodBEq : PModule → PModule → Bool
  | .mk n1 ms1 fs1 a1 t1 h1, .mk n2 ms2 fs2 a2 t2 h2 =>
    n1 = n2 && pmodListBEq ms1 ms2 && fs1 = fs2 && a1 = a2 && t1 = t2 && h1 = h2

def pmodListBEq : List PModule → List PModule → Bool
  | [], [] => true
  | x :: xs, y :: ys => pmodBEq x y && pmodListBEq xs ys
  | _, _ => false

end

mutual

theorem pmodBEq_iff : ∀ a b : PModule, pmodBEq a b = true ↔ a = b
  | .mk n1 ms1 fs1 a1 t1 h1, .mk n2 ms2 fs2 a2 t2 h2 => by
    simp only [pmodBEq, Bool.and_eq_true, decide_eq_true_eq, PModule.mk.injEq]
    rw [pmodListBEq_iff ms1 ms2]
    tauto

theorem pmodListBEq_iff : ∀ xs ys : List PModule, pmodListBEq xs ys = true ↔ xs = ys
  | [], [] => by simp [pmodListBEq]
  | [], _ :: _ => by simp [pmodListBEq]
  | _ :: _, [] => by simp [pmodListBEq]
  | x :: xs, y :: ys => by
    simp only [pmodListBEq, Bool.and_eq_true, List.cons.injEq]
    rw [pmodBEq_iff x y, pmodListBEq_iff xs ys]

end

instance : DecidableEq PModule := fun a b =>
  decidable_of_iff (pmodBEq a b = true) (pmodBEq_iff a b)

/-- Size of a module tree (number of module nodes), used as a termination
measure for the collapsing loops. -/
def pmodSize : PModule → Nat
  | .mk _ ms _ _ _ _ => 1 + pmodListSize ms
where
  pmodListSize : List PModule → Nat
    | [] => 0
    | m :: ms => pmodSize m + pmodListSize ms

theorem pmodListSize_mem_lt {m : PModule} {ms : List PModule} (h : m ∈ ms) :
    pmodSize m ≤ pmodSize.pmodListSize ms := by
  induction ms with
  | nil => cases h
  | cons x xs ih =>
    rcases List.mem_cons.mp h with rfl | hx
    · simp [pmodSize.pmodListSize]
    · have := ih hx
      simp only [pmodSize.pmodListSize]
      omega

theorem pmodListSize_append (xs ys : List PModule) :
    pmodSize.pmodListSize (xs ++ ys) =
      pmodSize.pmodListSize xs + pmodSize.pmodListSize ys := by
  induction xs with
  | nil => simp [pmodSize.pmodListSize]
  | cons x xs ih => simp [pmodSize.pmodListSize, ih]; omega

/-! ## File-system model

`fs.FS` is an interface; we model a deterministic file system as a record of
pure functions.  `stat` returns `none` on a stat error and otherwise whether
the path is a directory; `read` returns `none` when the content cannot be
read (`fs.ReadFile` / `Open` error) and the byte content otherwise.  The two
external collaborators consumed by `filesystem.go` — the tiktoken tokenizer
(`getFileTokenCount`, spec's SizeMeasurer) and the MD5 digest — are
deterministic pure functions of the content and are carried as fields. -/
structure GoFS where
  stat : String → Option Bool
  read : String → Option (List Nat)
  tok  : List Nat → Nat
  md5f : List Nat → String

/-- Character-level splitter underlying `splitPath` (structural, so that
concrete instances evaluate inside the kernel). -/
def splitChars (cs : List Char) (cur : List Char) : List String :=
  match cs with
  | [] => [String.mk cur.reverse]
  | c :: rest =>
    if c = '/' then String.mk cur.reverse :: splitChars rest []
    else splitChars rest (c :: cur)

/-- Path separator split, `strings.Split(relPath, "/")` from
`findOrCreateParentModule`. -/
def splitPath (p : String) : List String := splitChars p.toList []

/-- `filepath.Join(m.Name, chunk)` for the clean, nonempty, separator-free
segments produced by `splitPath` on clean relative paths. -/
def joinPath (a b : String) : String := a ++ "/" ++ b

/-- `newFileRef` (package `project`).  Modelled from the spec: the
constructor itself is code of this repository missing from the sources
(only its caller `newFileRefFromFS` is present); per the spec's data model a
File node carries its "relative path segment (name)", its weight and its
content fingerprint, so the stored name is the last path segment. -/
def newFileRef (relPath : String) (tokenCount : Int) (md5 : String) : FileRef :=
  { name := (splitPath relPath).getLast? |>.getD relPath
    tokenCount := tokenCount
    md5 := md5 }

/-- `newFileRefFromFS` from `filesystem.go` (lines 164–183): stat the file,
eagerly read its whole content (a read failure is returned as an error),
compute the token count — the tokenizer's own error is discarded
(`tCount, _ := getFileTokenCount(content)`), which the model reflects by
making `tok` total — and compute the MD5 of the content. -/
def newFileRefFromFS (fs_ : GoFS) (relPath : String) : Except String FileRef :=
  match fs_.stat relPath with
  | none => .error ("failed to stat file " ++ relPath)
  | some _ =>
    match fs_.read relPath with
    | none => .error ("failed to read file " ++ relPath)
    | some content =>
      .ok (newFileRef relPath (fs_.tok content) (fs_.md5f content))

/-- `newModule` (package `project`).  Modelled from the spec: the
constructor is code of this repository missing from the sources (only its
callers in `filesystem.go` are present).  Per the spec (§3 "a module's
*direct* (non-recursive) file weight", §4.3 "the current module's running
direct-weight counter") and the comment on `collapseByTokens` ("the parent
direct token count"), `localTokenCount` is the sum of the weights of the
module's directly owned files.  The module-level fingerprint computation is
an explicitly open question in the spec (§9); no verified property depends
on its value, so it is modelled as the empty digest. -/
def newModule (name : String) (children : List PModule) (files : List FileRef)
    ( annotation : Option Annotation) : PModule :=
  .mk name children files annotation (files.map FileRef.tokenCount).sum ""

/-! ## Phase 1: attaching files (`findOrCreateParentModule` /
`navigateOrCreateModule`, filesystem.go lines 186–231)

The Go code navigates with pointers and mutates in place; the functional
rendering returns the updated tree.  Child modules are named by their full
path (`childFullName`). -/

mutual

/-- Navigate from `m` down the (parent) `parts`, creating intermediate
modules as needed, and append `f` to the file list of the final module —
the composition of `navigateOrCreateModule` with
`parent.Files = append(parent.Files, fileRef)` from `BuildTree`. -/
def navInsert (m : PModule) (parts : List String) (f : FileRef) : PModule :=
  match parts with
  | [] => .mk m.name m.modules (m.files ++ [f]) m.annotation m.localTokenCount m.md5
  | chunk :: rest =>
    let childFullName := if m.name = "." then chunk else joinPath m.name chunk
    .mk m.name (navChildren m.modules childFullName rest f) m.files
      m.annotation m.localTokenCount m.md5
termination_by (parts.length, 0)

/-- Walk the child list looking for an existing submodule named
`childFullName`; recurse into the first match, or append a freshly created
chain at the end of the list (`m.Modules = append(m.Modules, newSub)`). -/
def navChildren (ms : List PModule) (childFullName : String) (rest : List String)
    (f : FileRef) : List PModule :=
  match ms with
  | [] => [freshChain childFullName rest f]
  | sub :: tail =>
    if sub.name = childFullName then navInsert sub rest f :: tail
    else sub :: navChildren tail childFullName rest f
termination_by (rest.length, ms.length)

/-- A chain of newly created modules ending in the file: a fresh submodule
has no children, so navigation below it always creates. -/
def freshChain (name : String) (rest : List String) (f : FileRef) : PModule :=
  match rest with
  | [] => .mk name [] [f] none 0 ""
  | c :: rs => .mk name [freshChain (joinPath name c) rs f] [] none 0 ""
termination_by (rest.length, 0)

end

/-- The loop body of `BuildTree` STEP 1 (filesystem.go lines 22–42): skip
empty entries, fail on stat errors, skip directories, build the `FileRef`
(eagerly reading content) and attach it under the parent path
(`findOrCreateParentModule`: the path minus its last component). -/
def phase1Step (fs_ : GoFS) (root : Except String PModule) (entry : String) :
    Except String PModule := do
  let r ← root
  if entry = "" then pure r
  else match fs_.stat entry with
    | none => Except.error ("failed to stat path " ++ entry)
    | some true => pure r
    | some false => do
      let fr ← newFileRefFromFS fs_ entry
      pure (navInsert r ((splitPath entry).dropLast) fr)

def buildPhase1 (fs_ : GoFS) (entries : List String) : Except String PModule :=
  entries.foldl (phase1Step fs_) (.ok (.mk "." [] [] none 0 ""))

/-! ## `collapseModules` (filesystem.go lines 234–256) -/

/-- The `for { ... }` loop of `collapseModules`: while the module has
exactly one child module and no files, replace its name, children and files
by the single child's (the child's name already contains the full path).
The `annotation`, `localTokenCount` and `md5` fields of `m` are left
untouched by the Go assignments. -/
def collapseLoopP : PModule → PModule
  | .mk _ [sub] [] a t h =>
    collapseLoopP (.mk sub.name sub.modules sub.files a t h)
  | m => m
termination_by m => pmodSize m
decreasing_by
  cases sub with
  | mk sn sms sfs sa st sh =>
    simp only [pmodSize, pmodSize.pmodListSize, PModule.name, PModule.modules,
      PModule.files]
    omega

/-- `collapseModules`: collapse children first (post-order), never collapse
the root (name `"."`), then run the collapsing loop. -/
def collapseModulesP : PModule → PModule
  | .mk n ms fs a t h =>
    let ms' := ms.attach.map fun c => collapseModulesP c.1
    if n = "." then .mk n ms' fs a t h else collapseLoopP (.mk n ms' fs a t h)
termination_by m => pmodSize m
decreasing_by
  have := pmodListSize_mem_lt c.2
  simp only [pmodSize]
  omega

/-! ## `collapseByTokens` (filesystem.go lines 69–102) -/

/-- `minTokenCountPerModule` (filesystem.go line 69). -/
def minTokenCountPerModule : Int := 1000

/-- `maxTokenCountPerModule` (filesystem.go line 70). -/
def maxTokenCountPerModule : Int := 100000

/-- Total module-node size of a worklist, termination measure for the merge
scan: merging consumes a child and enqueues its strictly smaller
sub-forest. -/
def worklistSize (ms : List PModule) : Nat := pmodSize.pmodListSize ms

theorem pmodSize_pos (m : PModule) : 1 ≤ pmodSize m := by
  cases m; simp [pmodSize]

theorem worklist_merge_lt (child : PModule) (rest : List PModule) :
    worklistSize (rest ++ child.modules) < worklistSize (child :: rest) := by
  cases child with
  | mk n ms fs a t h =>
    simp only [worklistSize, pmodSize.pmodListSize, pmodListSize_append, pmodSize,
      PModule.modules]
    omega

theorem worklist_skip_lt (child : PModule) (rest : List PModule) :
    worklistSize rest < worklistSize (child :: rest) := by
  have := pmodSize_pos child
  simp only [worklistSize, pmodSize.pmodListSize]
  omega

theorem lex_head_lt' (c : PModule) (cs : List PModule) (k : Nat) :
    Prod.Lex (· < ·) (· < ·) ((pmodSize c, 0) : Nat × Nat)
      (worklistSize (c :: cs), k + 1) := by
  rcases Nat.lt_or_ge (pmodSize c) (worklistSize (c :: cs)) with h | h
  · exact Prod.Lex.left _ _ h
  · have h2 : pmodSize c ≤ worklistSize (c :: cs) := by
      simp only [worklistSize, pmodSize.pmodListSize]; omega
    have h3 : pmodSize c = worklistSize (c :: cs) := le_antisymm h2 h
    rw [h3]
    exact Prod.Lex.right _ (Nat.succ_pos k)

theorem lex_tail_lt (c : PModule) (cs : List PModule) (k : Nat) :
    Prod.Lex (· < ·) (· < ·) ((worklistSize cs, cs.length) : Nat × Nat)
      (worklistSize (c :: cs), k) := by
  have := pmodSize_pos c
  apply Prod.Lex.left
  simp only [worklistSize, pmodSize.pmodListSize]
  omega

/-- The child-scan loop of `collapseByTokens` (lines 84–101).  The state is
`(remaining, kept, files, local)`: `m.Modules = kept ++ remaining` at every
iteration, `files` is `m.Files`, `local` is `m.localTokenCount`.  A child
whose `localTokenCount` is below MIN is merged when `local` plus the child's
count stays within MAX: the child's files are appended, the child's
sub-modules are appended at the end of the module list (the end of the
worklist), the counter grows, and the scan re-evaluates the same index;
otherwise the scan advances past the child. -/
def scanMerge (remaining kept : List PModule) (files : List FileRef) (local_ : Int) :
    List PModule × List FileRef × Int :=
  match remaining with
  | [] => (kept, files, local_)
  | child :: rest =>
    if child.localTokenCount < minTokenCountPerModule ∧
        local_ + child.localTokenCount ≤ maxTokenCountPerModule then
      scanMerge (rest ++ child.modules) kept (files ++ child.files)
        (local_ + child.localTokenCount)
    else
      scanMerge rest (kept ++ [child]) files local_
termination_by worklistSize remaining
decreasing_by
  · exact worklist_merge_lt _ _
  · exact worklist_skip_lt _ _

/-- `collapseByTokens`: recurse into the children first (bottom-up), then
run the merge scan over the child list. -/
def collapseByTokensP : PModule → PModule
  | .mk n ms fs a t h =>
    let children := ms.attach.map fun c => collapseByTokensP c.1
    let r := scanMerge children [] fs t
    .mk n r.1 r.2.1 a r.2.2 h
termination_by m => pmodSize m
decreasing_by
  have := pmodListSize_mem_lt c.2
  simp only [pmodSize]
  omega

/-! ## `rebuildWithNewModule` and `BuildTree` (filesystem.go lines 15–65,
104–117) -/

/-- `rebuildWithNewModule`: rebuild every node via `newModule` so that
`localTokenCount` (and the module hash) are recomputed from the current
file lists. -/
def rebuildWithNewModule : PModule → PModule
  | .mk n ms fs a _ _ =>
    newModule n (ms.attach.map fun c => rebuildWithNewModule c.1) fs a
termination_by m => pmodSize m
decreasing_by
  have := pmodListSize_mem_lt c.2
  simp only [pmodSize]
  omega

/-- `BuildTree` from `filesystem.go` (project package): phase 1 attaches all
files, `collapseModules` removes trivial single-child folders, the tree is
rebuilt via `newModule` so module token counts are populated,
`collapseByTokens` merges undersized modules, and the result is rebuilt once
more. -/
def buildTreeP (fs_ : GoFS) (entries : List String) : Except String PModule := do
  let root ← buildPhase1 fs_ entries
  let collapsed := collapseModulesP root
  let rebuilt := rebuildWithNewModule collapsed
  let merged := collapseByTokensP rebuilt
  pure (rebuildWithNewModule merged)

/-! ## Package `workspace/summary` (summary.go)

`Node` is an interface implemented by `folderNode` and `fileNode`; both
carry a lazily computed, memoized `tokenCount *int`, modelled as
`Option Nat`.  Parent back-pointers are left implicit: in the functional
rendering parent/child consistency holds by construction, and the
re-parenting assignments of `collapseFolders` become no-ops. -/

/-- A `summary.Node`: either a `fileNode` (name, filePath, cached count) or
a `folderNode` (name, children, cached count). -/
inductive SNode where
  | file (name filePath : String) (tokenCount : Option Nat)
  | folder (name : String) (children : List SNode) (tokenCount : Option Nat)
deriving Repr

mutual

/-- Structural decidable equality for `SNode`. -/
def snodeBEq : SNode → SNode → Bool
  | .file n1 p1 t1, .file n2 p2 t2 => n1 = n2 && p1 = p2 && t1 = t2
  | .folder n1 cs1 t1, .folder n2 cs2 t2 => n1 = n2 && snodeListBEq cs1 cs2 && t1 = t2
  | _, _ => false

def snodeListBEq : List SNode → List SNode → Bool
  | [], [] => true
  | x :: xs, y :: ys => snodeBEq x y && snodeListBEq xs ys
  | _, _ => false

end

mutual

theorem snodeBEq_iff : ∀ a b : SNode, snodeBEq a b = true ↔ a = b
  | .file n1 p1 t1, .file n2 p2 t2 => by
    simp [snodeBEq]
    tauto
  | .file _ _ _, .folder _ _ _ => by
    simp [snodeBEq]
  | .folder _ _ _, .file _ _ _ => by
    simp [snodeBEq]
  | .folder n1 cs1 t1, .folder n2 cs2 t2 => by
    simp only [snodeBEq, Bool.and_eq_true, decide_eq_true_eq, SNode.folder.injEq]
    rw [snodeListBEq_iff cs1 cs2]
    tauto

theorem snodeListBEq_iff : ∀ xs ys : List SNode, snodeListBEq xs ys = true ↔ xs = ys
  | [], [] => by simp [snodeListBEq]
  | [], _ :: _ => by simp [snodeListBEq]
  | _ :: _, [] => by simp [snodeListBEq]
  | x :: xs, y :: ys => by
    simp only [snodeListBEq, Bool.and_eq_true, List.cons.injEq]
    rw [snodeBEq_iff x y, snodeListBEq_iff xs ys]

end

instance : DecidableEq SNode := fun a b =>
  decidable_of_iff (snodeBEq a b = true) (snodeBEq_iff a b)

/-- Number of nodes of a summary tree; termination measure for the
collapsing loop (node names grow during collapsing, so `sizeOf` does not
decrease, but the node count does). -/
def snodeSize : SNode → Nat
  | .file _ _ _ => 1
  | .folder _ cs _ => 1 + snodeListSize cs
where
  snodeListSize : List SNode → Nat
    | [] => 0
    | c :: cs => snodeSize c + snodeListSize cs

theorem snodeListSize_mem_lt {c : SNode} {cs : List SNode} (h : c ∈ cs) :
    snodeSize c ≤ snodeSize.snodeListSize cs := by
  induction cs with
  | nil => cases h
  | cons x xs ih =>
    rcases List.mem_cons.mp h with rfl | hx
    · simp [snodeSize.snodeListSize]
    · have := ih hx
      simp only [snodeSize.snodeListSize]
      omega

/-- File system as seen by package `summary`: `stat` (`none` = stat error,
otherwise whether the path is a directory), `read` (`none` = unreadable
content) and the tokenizer collaborator. -/
structure SFS where
  stat : String → Option Bool
  read : String → Option (List Nat)
  tok  : List Nat → Nat

mutual

/-- `Node.TokenCount`, summary.go lines 73–121, with memoization made
explicit: the call returns the value together with the node updated by the
lazy-initialization writes.  A `fileNode` whose content cannot be read
degrades to a count of zero (`count := 0` when `fs.ReadFile` errors); a
`folderNode` sums the counts of all its children. -/
def tokenCountM (fs_ : SFS) : SNode → Nat × SNode
  | .file n p (some v) => (v, .file n p (some v))
  | .file n p none =>
    match fs_.read p with
    | some content => (fs_.tok content, .file n p (some (fs_.tok content)))
    | none => (0, .file n p (some 0))
  | .folder n cs (some v) => (v, .folder n cs (some v))
  | .folder n cs none =>
    let r := tokenCountList fs_ cs
    (r.1, .folder n r.2 (some r.1))

/-- Fold `TokenCount` over a child list, accumulating the sum and the
updated children. -/
def tokenCountList (fs_ : SFS) : List SNode → Nat × List SNode
  | [] => (0, [])
  | c :: cs =>
    let rc := tokenCountM fs_ c
    let rcs := tokenCountList fs_ cs
    (rc.1 + rcs.1, rc.2 :: rcs.2)

end

/-- The first (pure) component of `tokenCountM`: the value `TokenCount`
returns. -/
def tokenCountVal (fs_ : SFS) (n : SNode) : Nat := (tokenCountM fs_ n).1

/-- `collapseFolders` (summary.go lines 231–265): post-order; the root
(`parent == nil`, modelled by the `isRoot` flag of the caller) is never
collapsed; while a folder has exactly one child and that child is a folder,
join the names with the path separator and adopt the child's children. -/
def collapseLoopS (name : String) (children : List SNode) (tc : Option Nat) : SNode :=
  match children with
  | [.folder sn scs stc] => collapseLoopS (name ++ "/" ++ sn) scs tc
  | _ => .folder name children tc
termination_by snodeSize.snodeListSize children
decreasing_by
  simp only [snodeSize.snodeListSize, snodeSize]
  omega

/-- Recursive part of `collapseFolders`; `isRoot` is true exactly for the
node whose `parent` is `nil`. -/
def collapseFoldersAux (isRoot : Bool) : SNode → SNode
  | .file n p tc => .file n p tc
  | .folder n cs tc =>
    let cs' := cs.attach.map fun c => collapseFoldersAux false c.1
    if isRoot then .folder n cs' tc
    else collapseLoopS n cs' tc
termination_by n => sizeOf n
decreasing_by
  have := List.sizeOf_lt_of_mem c.2
  simp only [SNode.folder.sizeOf_spec]
  omega

/-- `collapseFolders` as invoked by `BuildTree`: the argument is the root. -/
def collapseFoldersS (n : SNode) : SNode := collapseFoldersAux true n

/-! `summary.BuildTree` phase 1 navigation (`navigateOrCreate`,
summary.go lines 193–218): children are searched by segment name, only
folder children match, and missing folders are created.  Unlike the project
variant, names are bare segments. -/

mutual

def navInsertS (n : SNode) (parts : List String) (f : SNode) : SNode :=
  match n, parts with
  | .folder nm cs tc, [] => .folder nm (cs ++ [f]) tc
  | .folder nm cs tc, chunk :: rest => .folder nm (navChildrenS cs chunk rest f) tc
  | .file nm p tc, _ => .file nm p tc
termination_by (parts.length, 0)

def navChildrenS (cs : List SNode) (chunk : String) (rest : List String) (f : SNode) :
    List SNode :=
  match cs with
  | [] => [freshChainS chunk rest f]
  | c :: tail =>
    match c with
    | .folder cn ccs ctc =>
      if cn = chunk then navInsertS (.folder cn ccs ctc) rest f :: tail
      else .folder cn ccs ctc :: navChildrenS tail chunk rest f
    | .file cn cp ctc => .file cn cp ctc :: navChildrenS tail chunk rest f
termination_by (rest.length, cs.length)

def freshChainS (name : String) (rest : List String) (f : SNode) : SNode :=
  match rest with
  | [] => .folder name [f] none
  | c :: rs => .folder name [freshChainS c rs f] none
termination_by (rest.length, 0)

end

/-- One entry of `summary.BuildTree`'s loop (lines 132–170): skip empty
entries, fail on stat errors, skip directories, attach a cache-free
`fileNode` named by the last path segment under the parent path.
(`filepath.Rel(".", entry)` is the identity on the clean relative paths
considered here.) -/
def sPhase1Step (fs_ : SFS) (root : Except String SNode) (entry : String) :
    Except String SNode := do
  let r ← root
  if entry = "" then pure r
  else match fs_.stat entry with
    | none => Except.error ("failed to stat path " ++ entry)
    | some true => pure r
    | some false =>
      let base := (splitPath entry).getLast? |>.getD entry
      pure (navInsertS r ((splitPath entry).dropLast) (.file base entry none))

/-- `summary.BuildTree`: attach every file, then collapse trivial folders.
No file content is ever read (token counts are lazy). -/
def buildTreeS (fs_ : SFS) (entries : List String) : Except String SNode := do
  let root ← entries.foldl (sPhase1Step fs_) (.ok (.folder "." [] none))
  pure (collapseFoldersS root)

/-! ## `Metadata.Patch` (update.go lines 25–70) -/

/-- `Metadata`: the `Root` marker and the module tree.  A `nil` receiver
pointer and a `nil` `Modules` field behave identically for `Patch`, so a
single `Option` models both. -/
structure PMetadata where
  root    : String
  modules : Option PModule
deriving DecidableEq, Repr

/-- `collectModuleMap` (update.go lines 44–52): record every module of the
tree by name, in preorder (self before children); the Go `map` assignment
means a later record with the same name overwrites an earlier one. -/
def collectModuleMap : PModule → List (String × PModule)
  | .mk n ms fs a t h =>
    (n, .mk n ms fs a t h) :: collectList ms
where
  collectList : List PModule → List (String × PModule)
    | [] => []
    | m :: ms => collectModuleMap m ++ collectList ms

/-- Go map lookup over the insertion list: the last insertion for a name
wins. -/
def lookupModule (assoc : List (String × PModule)) (name : String) : Option PModule :=
  (assoc.reverse.find? fun p => p.1 = name).map Prod.snd

/-- `mergeAnnotations` (update.go lines 57–70): walk the fresh tree; when a
module of the same name existed in the old tree with an unchanged MD5 and a
non-nil annotation, copy the old annotation onto the fresh module; recurse
into the children. -/
def mergeAnnotationsP (oldMap : List (String × PModule)) : PModule → PModule
  | .mk n ms fs a t h =>
    let a' :=
      match lookupModule oldMap n with
      | some old => if old.md5 = h ∧ old.annotation ≠ none then old.annotation else a
      | none => a
    .mk n (ms.attach.map fun c => mergeAnnotationsP oldMap c.1) fs a' t h
termination_by m => pmodSize m
decreasing_by
  have := pmodListSize_mem_lt c.2
  simp only [pmodSize]
  omega

/-- `Metadata.Patch`: the fresh hierarchy replaces the stored one, and
annotations are carried over by `mergeAnnotations` using the name → module
map of the stored tree. -/
def patchP (m other : PMetadata) : PMetadata :=
  match other.modules with
  | none => m
  | some fresh =>
    let oldMap := match m.modules with
      | none => []
      | some oldRoot => collectModuleMap oldRoot
    { m with modules := some (mergeAnnotationsP oldMap fresh) }

/-! ## The annotation pass (`annotate`, annotation.go lines 26–99)

`annotate` launches one goroutine per not-yet-annotated module; each task
waits on the `dones` channel of every direct child (channels of pre-annotated
modules are closed up front), then invokes `createAnnotation`, sends any
error on `errCh`, and closes its own channel.  The external summarizer is an
oracle parameter.  Two complementary renderings are used:

* `annotateSeq` — the deterministic sequential schedule (children in list
  order, then the parent), which is one valid execution and fixes the
  data-flow: which modules are summarized, which annotations are written,
  which errors are collected.
* valid traces — the set of all event interleavings compatible with the
  channel synchronization, for the ordering and error-surfacing claims. -/

/-- Identify a module inside a fixed tree by its child-index path (Go
identifies tasks by pointer identity; paths play that role here). -/
def subAt : PModule → List Nat → Option PModule
  | m, [] => some m
  | m, i :: p => match m.modules.get? i with
    | some c => subAt c p
    | none => none

/-- All module paths of the tree in the post-order used by
`collectModulesInPostOrder` (children first, then the node). -/
def postOrderPaths (m : PModule) (pre : List Nat) : List (List Nat) :=
  match m with
  | .mk _ ms _ _ _ _ => postOrderList ms pre 0 ++ [pre]
where
  postOrderList : List PModule → List Nat → Nat → List (List Nat)
    | [], _, _ => []
    | c :: cs, pre, i => postOrderPaths c (pre ++ [i]) ++ postOrderList cs pre (i + 1)

/-- Whether the module at `p` exists and has no pre-existing annotation
(such modules get a task; the others have their channel pre-closed). -/
def unannAt (t : PModule) (p : List Nat) : Prop :=
  ∃ m, subAt t p = some m ∧ m.annotation = none

instance (t : PModule) (p : List Nat) : Decidable (unannAt t p) := by
  unfold unannAt
  exact inferInstance

/-- The summarizer oracle: outcome of `createAnnotation` for the task at a
given path (deterministic per task, as the call is a pure function of the
module's files and names). -/
def Oracle : Type := List Nat → Except String Annotation

/-- Events of an execution of `annotate`: a task starts its
`createAnnotation` call, reports an error on `errCh`, or closes its `dones`
channel. -/
inductive AEvent where
  | start (p : List Nat)
  | fail  (p : List Nat)
  | done  (p : List Nat)
deriving DecidableEq, Repr

def AEvent.path : AEvent → List Nat
  | .start p => p
  | .fail p => p
  | .done p => p

/-- Position of an event in a trace (the list length when absent; validity
constraints are only applied to events known to be present). -/
def idxIn (tr : List AEvent) (e : AEvent) : Nat := tr.indexOf e

/-- A complete valid execution of `annotate t` with summarizer `ora`:

* only events of existing unannotated modules occur, each exactly once
  (`Nodup` and the completeness clauses) — every launched task runs to its
  end, there is no cancellation path in the code;
* a task's `start` precedes its `fail` (if any) and its `done`;
* a task fails exactly when the oracle errs on it;
* a task starts only after the `done` of every *unannotated* direct child
  (the channels of annotated children are closed before the tasks launch). -/
def ValidTrace (t : PModule) (ora : Oracle) (tr : List AEvent) : Prop :=
  tr.Nodup ∧
  (∀ e ∈ tr, e.path ∈ postOrderPaths t [] ∧ unannAt t e.path) ∧
  (∀ p ∈ postOrderPaths t [], unannAt t p →
    (AEvent.start p ∈ tr ∧ AEvent.done p ∈ tr ∧
      (AEvent.fail p ∈ tr ↔ ∃ e, ora p = .error e) ∧
      idxIn tr (.start p) < idxIn tr (.done p) ∧
      (AEvent.fail p ∈ tr →
        idxIn tr (.start p) < idxIn tr (.fail p) ∧
        idxIn tr (.fail p) < idxIn tr (.done p)))) ∧
  (∀ p ∈ postOrderPaths t [], unannAt t p →
    ∀ m, subAt t p = some m →
      ∀ i < m.modules.length, unannAt t (p ++ [i]) →
        idxIn tr (.done (p ++ [i])) < idxIn tr (.start p))

instance (t : PModule) (ora : Oracle) (tr : List AEvent) :
    Decidable (ValidTrace t ora tr) := by
  unfold ValidTrace
  have : ∀ p : List Nat, Decidable (∃ e, ora p = .error e) := fun p => by
    cases h : ora p with
    | error e => exact isTrue ⟨e, rfl⟩
    | ok a => exact isFalse (by simp [h])
  exact inferInstance

/-- The error surfaced to the caller: `annotate` drains `errCh` and returns
the first entry, i.e. the error of the task whose failure was reported
first. -/
def surfacedFail (tr : List AEvent) : Option (List Nat) :=
  (tr.find? fun e => match e with | .fail _ => true | _ => false).map AEvent.path

/-- The first failing module in the discovery (post-order collection)
order. -/
def firstDiscoveryFail (t : PModule) (ora : Oracle) : Option (List Nat) :=
  (postOrderPaths t []).find? fun p =>
    decide (unannAt t p) && match ora p with | .error _ => true | .ok _ => false

/-- The sequential reference schedule: process the tree post-order (children
in list order first); an unannotated module's oracle outcome either becomes
its annotation or is appended to the error list.  Mirrors the data-flow of
`annotate`: no outcome of a task depends on any other task beyond the
wait-for-children ordering, so every valid execution computes these same
annotations and this same error *set*. -/
def annotateSeq (ora : Oracle) (t : PModule) (pre : List Nat) :
    PModule × List String :=
  match t with
  | .mk n ms fs a lt h =>
    let r := annotateSeqList ms pre 0
    match a with
    | some a0 => (.mk n r.1 fs (some a0) lt h, r.2)
    | none =>
      match ora pre with
      | .ok ann => (.mk n r.1 fs (some ann) lt h, r.2)
      | .error e =>
        (.mk n r.1 fs none lt h,
          r.2 ++ [("failed to create annotation for module " ++ n ++ ": " ++ e)])
where
  annotateSeqList : List PModule → List Nat → Nat → List PModule × List String
    | [], _, _ => ([], [])
    | c :: cs, pre, i =>
      let rc := annotateSeq ora c (pre ++ [i])
      let rcs := annotateSeqList cs pre (i + 1)
      (rc.1 :: rcs.1, rc.2 ++ rcs.2)

/-! ## Observables: transitive file multisets and the descendant relation -/

/-- The multiset of file references reachable from a module (its own files
and, recursively, those of its submodules). -/
def pFilesM : PModule → Multiset FileRef
  | .mk _ ms fs _ _ _ => (fs : Multiset FileRef) + pFilesList ms
where
  pFilesList : List PModule → Multiset FileRef
    | [] => 0
    | m :: ms => pFilesM m + pFilesList ms

/-- The multiset of file nodes reachable from a summary node. -/
def sFiles : SNode → Multiset SNode
  | .file n p tc => {SNode.file n p tc}
  | .folder _ cs _ => sFilesList cs
where
  sFilesList : List SNode → Multiset SNode
    | [] => 0
    | c :: cs => sFiles c + sFilesList cs

/-- `d` is a node of the tree rooted at `m` (reflexive–transitive child
relation on modules). -/
inductive POccursIn : PModule → PModule → Prop
  | refl (m : PModule) : POccursIn m m
  | child {d c m : PModule} : c ∈ m.modules → POccursIn d c → POccursIn d m

/-- `d` is a strictly deeper node of the tree rooted at `m` — a non-root
module of that tree. -/
def PStrictIn (d m : PModule) : Prop := ∃ c ∈ m.modules, POccursIn d c

/-! ### C10 groundwork: the three restructuring passes only regroup files -/

theorem pFilesM_mk (n : String) (ms : List PModule) (fs : List FileRef)
    (a : Option Annotation) (t : Int) (h : String) :
    pFilesM (.mk n ms fs a t h) = (fs : Multiset FileRef) + pFilesM.pFilesList ms := rfl

theorem pFilesList_append (xs ys : List PModule) :
    pFilesM.pFilesList (xs ++ ys) = pFilesM.pFilesList xs + pFilesM.pFilesList ys := by
  induction xs with
  | nil => simp [pFilesM.pFilesList]
  | cons x xs ih =>
    simp only [List.cons_append, List.append_eq, pFilesM.pFilesList, ih, add_assoc]

theorem pFilesList_map {f : PModule → PModule} {ms : List PModule}
    (h : ∀ c ∈ ms, pFilesM (f c) = pFilesM c) :
    pFilesM.pFilesList (ms.map f) = pFilesM.pFilesList ms := by
  induction ms with
  | nil => simp [pFilesM.pFilesList]
  | cons x xs ih =>
    simp only [List.map_cons, pFilesM.pFilesList]
    rw [h x (by simp), ih fun c hc => h c (List.mem_cons_of_mem _ hc)]

theorem pFilesM_collapseLoopP (m : PModule) :
    pFilesM (collapseLoopP m) = pFilesM m := by
  induction m using collapseLoopP.induct with
  | case1 n sub a t h ih =>
    rw [collapseLoopP, ih]
    cases sub with
    | mk sn sms sfs sa st sh =>
      simp only [pFilesM_mk, pFilesM.pFilesList, PModule.name, PModule.modules,
        PModule.files]
      abel
  | case2 m hstop =>
    rw [collapseLoopP.eq_def]
    cases m with
    | mk n ms fs a t h =>
      match ms, fs with
      | [], _ => rfl
      | [sub], f :: fs => rfl
      | [sub], [] => exact (hstop n sub a t h rfl).elim
      | s1 :: s2 :: rest, _ => rfl

theorem pFilesM_collapseModulesP (m : PModule) :
    pFilesM (collapseModulesP m) = pFilesM m := by
  induction m using collapseModulesP.induct with
  | case1 ms fs a t h ih =>
    rw [collapseModulesP, if_pos rfl, pFilesM_mk, pFilesM_mk,
      List.attach_map_val ms collapseModulesP,
      pFilesList_map fun c hc => ih ⟨c, hc⟩]
  | case2 n ms fs a t h hroot ih =>
    rw [collapseModulesP, if_neg hroot, pFilesM_collapseLoopP, pFilesM_mk, pFilesM_mk,
      List.attach_map_val ms collapseModulesP,
      pFilesList_map fun c hc => ih ⟨c, hc⟩]

theorem pFilesM_scanMerge (remaining kept : List PModule) (files : List FileRef)
    (local_ : Int) :
    pFilesM.pFilesList (scanMerge remaining kept files local_).1 +
        ((scanMerge remaining kept files local_).2.1 : Multiset FileRef) =
      pFilesM.pFilesList remaining + pFilesM.pFilesList kept +
        (files : Multiset FileRef) := by
  induction remaining, kept, files, local_ using scanMerge.induct with
  | case1 kept files local_ =>
    rw [scanMerge]
    simp only [pFilesM.pFilesList]
    abel
  | case2 kept files local_ child rest hcond ih =>
    rw [scanMerge, if_pos hcond, ih]
    cases child with
    | mk n ms fs a t h =>
      simp only [pFilesList_append, pFilesM.pFilesList, pFilesM_mk, PModule.modules,
        PModule.files, ← Multiset.coe_add]
      push_cast
      abel
  | case3 kept files local_ child rest hcond ih =>
    rw [scanMerge, if_neg hcond, ih]
    simp only [pFilesList_append, pFilesM.pFilesList]
    abel

theorem pFilesM_collapseByTokensP (m : PModule) :
    pFilesM (collapseByTokensP m) = pFilesM m := by
  induction m using collapseByTokensP.induct with
  | case1 n ms fs a t h ih =>
    rw [collapseByTokensP]
    have hscan := pFilesM_scanMerge (ms.attach.map fun c => collapseByTokensP c.1)
      [] fs t
    rw [List.attach_map_val ms collapseByTokensP,
      pFilesList_map fun c hc => ih ⟨c, hc⟩] at hscan
    simp only [pFilesM.pFilesList, add_zero] at hscan
    simp only [pFilesM_mk, List.attach_map_val ms collapseByTokensP]
    rw [add_comm ((_ : Multiset FileRef)) (pFilesM.pFilesList _), hscan]
    abel

theorem sFilesList_map {f : SNode → SNode} {cs : List SNode}
    (h : ∀ c ∈ cs, sFiles (f c) = sFiles c) :
    sFiles.sFilesList (cs.map f) = sFiles.sFilesList cs := by
  induction cs with
  | nil => simp [sFiles.sFilesList]
  | cons x xs ih =>
    simp only [List.map_cons, sFiles.sFilesList]
    rw [h x (by simp), ih fun c hc => h c (List.mem_cons_of_mem _ hc)]

theorem sFiles_collapseLoopS (name : String) (children : List SNode) (tc : Option Nat) :
    sFiles (collapseLoopS name children tc) = sFiles.sFilesList children := by
  induction name, children, tc using collapseLoopS.induct with
  | case1 name tc sn scs stc ih =>
    rw [collapseLoopS, ih]
    simp [sFiles, sFiles.sFilesList]
  | case2 name children tc hstop =>
    rw [collapseLoopS.eq_def]
    split
    · rename_i sn scs stc
      exact (hstop sn scs stc rfl).elim
    · rfl

theorem sFiles_collapseFoldersAux (isRoot : Bool) (n : SNode) :
    sFiles (collapseFoldersAux isRoot n) = sFiles n := by
  induction isRoot, n using collapseFoldersAux.induct with
  | case1 isRoot nm p tc => rw [collapseFoldersAux]
  | case2 nm cs tc ih =>
    rw [collapseFoldersAux, if_pos rfl]
    have hcs : sFiles.sFilesList (cs.attach.map fun c => collapseFoldersAux false c.1) =
        sFiles.sFilesList cs := by
      rw [List.attach_map_val cs (collapseFoldersAux false)]
      exact sFilesList_map fun c hc => ih ⟨c, hc⟩
    simpa [sFiles] using hcs
  | case3 isRoot nm cs tc hr ih =>
    rw [collapseFoldersAux, if_neg hr, sFiles_collapseLoopS]
    have hcs : sFiles.sFilesList (cs.attach.map fun c => collapseFoldersAux false c.1) =
        sFiles.sFilesList cs := by
      rw [List.attach_map_val cs (collapseFoldersAux false)]
      exact sFilesList_map fun c hc => ih ⟨c, hc⟩
    simpa [sFiles] using hcs

theorem sFiles_collapseFoldersS (n : SNode) : sFiles (collapseFoldersS n) = sFiles n :=
  sFiles_collapseFoldersAux true n

/-- C10: the restructuring passes `collapseModules` and `collapseByTokens`
(package `project`) and `collapseFolders` (package `summary`) preserve the
multiset of file nodes reachable from the root: no file is created,
duplicated or dropped — only module grouping and module names change. -/
theorem claim_C10_file_preservation :
    (∀ m : PModule, pFilesM (collapseModulesP m) = pFilesM m) ∧
    (∀ m : PModule, pFilesM (collapseByTokensP m) = pFilesM m) ∧
    (∀ n : SNode, sFiles (collapseFoldersS n) = sFiles n) :=
  ⟨pFilesM_collapseModulesP, pFilesM_collapseByTokensP, sFiles_collapseFoldersS⟩

/-! ## C9: the aggregate-weight equation on built summary trees -/

/-- Children of a summary node (`Children()`): folders list them, files have
none. -/
def sChildren : SNode → List SNode
  | .file _ _ _ => []
  | .folder _ cs _ => cs

/-- `d` occurs in the tree rooted at `n`. -/
inductive SOccursIn : SNode → SNode → Prop
  | refl (n : SNode) : SOccursIn n n
  | child {d c n : SNode} : c ∈ sChildren n → SOccursIn d c → SOccursIn d n

mutual

/-- No memoized token count anywhere in the tree (the state of every node
`BuildTree` creates: token counts are computed only on demand, after the
build). -/
def cacheFreeB : SNode → Bool
  | .file _ _ tc => tc.isNone
  | .folder _ cs tc => tc.isNone && cacheFreeListB cs

def cacheFreeListB : List SNode → Bool
  | [] => true
  | c :: cs => cacheFreeB c && cacheFreeListB cs

end

theorem cacheFreeListB_iff (cs : List SNode) :
    cacheFreeListB cs = true ↔ ∀ c ∈ cs, cacheFreeB c = true := by
  induction cs with
  | nil => simp [cacheFreeListB]
  | cons x xs ih =>
    simp [cacheFreeListB, ih]

theorem cacheFreeB_of_occurs {d n : SNode} (hocc : SOccursIn d n)
    (hn : cacheFreeB n = true) : cacheFreeB d = true := by
  induction hocc with
  | refl => exact hn
  | child hmem hsub ih =>
    apply ih
    rename_i c m
    cases m with
    | file nm p tc => cases hmem
    | folder nm cs tc =>
      simp only [sChildren] at hmem
      simp only [cacheFreeB, Bool.and_eq_true, cacheFreeListB_iff] at hn
      exact hn.2 c hmem

theorem cacheFreeListB_append {xs ys : List SNode} :
    cacheFreeListB (xs ++ ys) = (cacheFreeListB xs && cacheFreeListB ys) := by
  induction xs with
  | nil => simp [cacheFreeListB]
  | cons x xs ih => simp [cacheFreeListB, ih, Bool.and_assoc]

mutual

theorem cacheFree_navInsertS (n : SNode) (parts : List String) (f : SNode)
    (hn : cacheFreeB n = true) (hf : cacheFreeB f = true) :
    cacheFreeB (navInsertS n parts f) = true := by
  rw [navInsertS.eq_def]
  match n, parts with
  | .folder nm cs tc, [] =>
    simp only [cacheFreeB, Bool.and_eq_true] at hn ⊢
    exact ⟨hn.1, by rw [cacheFreeListB_append]; simp [cacheFreeListB, hn.2, hf]⟩
  | .folder nm cs tc, chunk :: rest =>
    simp only [cacheFreeB, Bool.and_eq_true] at hn ⊢
    exact ⟨hn.1, cacheFree_navChildrenS cs chunk rest f hn.2 hf⟩
  | .file nm p tc, _ => exact hn
termination_by (parts.length, 0)

theorem cacheFree_navChildrenS (cs : List SNode) (chunk : String) (rest : List String)
    (f : SNode) (hcs : cacheFreeListB cs = true) (hf : cacheFreeB f = true) :
    cacheFreeListB (navChildrenS cs chunk rest f) = true := by
  rw [navChildrenS.eq_def]
  match cs with
  | [] =>
    simp [cacheFreeListB, cacheFree_freshChainS chunk rest f hf]
  | c :: tail =>
    simp only [cacheFreeListB, Bool.and_eq_true] at hcs
    match c with
    | .folder cn ccs ctc =>
      by_cases hcn : cn = chunk
      · simp only [if_pos hcn, cacheFreeListB, Bool.and_eq_true]
        exact ⟨cacheFree_navInsertS _ rest f hcs.1 hf, hcs.2⟩
      · simp only [if_neg hcn, cacheFreeListB, Bool.and_eq_true]
        exact ⟨hcs.1, cacheFree_navChildrenS tail chunk rest f hcs.2 hf⟩
    | .file cn cp ctc =>
      simp only [cacheFreeListB, Bool.and_eq_true]
      exact ⟨hcs.1, cacheFree_navChildrenS tail chunk rest f hcs.2 hf⟩
termination_by (rest.length, cs.length)

theorem cacheFree_freshChainS (name : String) (rest : List String) (f : SNode)
    (hf : cacheFreeB f = true) : cacheFreeB (freshChainS name rest f) = true := by
  rw [freshChainS.eq_def]
  match rest with
  | [] => simp [cacheFreeB, cacheFreeListB, hf]
  | c :: rs =>
    simp only [cacheFreeB, cacheFreeListB, Option.isNone_none, Bool.true_and,
      Bool.and_true]
    simp [cacheFree_freshChainS c rs f hf]
termination_by (rest.length, 0)

end

theorem cacheFree_collapseLoopS (name : String) (children : List SNode) (tc : Option Nat)
    (htc : tc.isNone = true) (hcs : cacheFreeListB children = true) :
    cacheFreeB (collapseLoopS name children tc) = true := by
  induction name, children, tc using collapseLoopS.induct with
  | case1 name tc sn scs stc ih =>
    rw [collapseLoopS]
    apply ih htc
    simp only [cacheFreeListB, cacheFreeB, Bool.and_eq_true] at hcs
    exact hcs.1.2
  | case2 name children tc hstop =>
    rw [collapseLoopS.eq_def]
    split
    · rename_i sn scs stc
      exact (hstop sn scs stc rfl).elim
    · simp [cacheFreeB, htc, hcs]

theorem cacheFree_collapseFoldersAux (isRoot : Bool) (n : SNode)
    (hn : cacheFreeB n = true) : cacheFreeB (collapseFoldersAux isRoot n) = true := by
  induction isRoot, n using collapseFoldersAux.induct with
  | case1 isRoot nm p tc => rw [collapseFoldersAux]; exact hn
  | case2 nm cs tc ih =>
    rw [collapseFoldersAux, if_pos rfl]
    simp only [cacheFreeB, Bool.and_eq_true, cacheFreeListB_iff] at hn ⊢
    refine ⟨hn.1, ?_⟩
    intro c hc
    rw [List.attach_map_val cs (collapseFoldersAux false)] at hc
    obtain ⟨c0, hc0, rfl⟩ := List.mem_map.mp hc
    exact ih ⟨c0, hc0⟩ (hn.2 c0 hc0)
  | case3 isRoot nm cs tc hr ih =>
    rw [collapseFoldersAux, if_neg hr]
    simp only [cacheFreeB, Bool.and_eq_true, cacheFreeListB_iff] at hn
    apply cacheFree_collapseLoopS _ _ _ hn.1
    rw [cacheFreeListB_iff]
    intro c hc
    rw [List.attach_map_val cs (collapseFoldersAux false)] at hc
    obtain ⟨c0, hc0, rfl⟩ := List.mem_map.mp hc
    exact ih ⟨c0, hc0⟩ (hn.2 c0 hc0)

theorem cacheFree_sPhase1 (fs_ : SFS) (entries : List String) (acc : Except String SNode)
    (hacc : ∀ r, acc = .ok r → cacheFreeB r = true) :
    ∀ r, entries.foldl (sPhase1Step fs_) acc = .ok r → cacheFreeB r = true := by
  induction entries generalizing acc with
  | nil => exact hacc
  | cons e es ih =>
    intro r hr
    refine ih (sPhase1Step fs_ acc e) ?_ r hr
    intro r' hr'
    rw [sPhase1Step] at hr'
    match hacc2 : acc with
    | .error msg =>
      simp only [Bind.bind, Except.bind] at hr'
      cases hr'
    | .ok base =>
      have hbase := hacc base rfl
      simp only [Bind.bind, Except.bind] at hr'
      by_cases he : e = ""
      · rw [if_pos he] at hr'
        cases hr'
        exact hbase
      · rw [if_neg he] at hr'
        match hst : fs_.stat e with
        | none => rw [hst] at hr'; cases hr'
        | some true => rw [hst] at hr'; cases hr'; exact hbase
        | some false =>
          rw [hst] at hr'
          cases hr'
          exact cacheFree_navInsertS base _ _ hbase rfl

theorem cacheFree_buildTreeS (fs_ : SFS) (entries : List String) (t : SNode)
    (hb : buildTreeS fs_ entries = .ok t) : cacheFreeB t = true := by
  rw [buildTreeS] at hb
  match hph : entries.foldl (sPhase1Step fs_) (.ok (.folder "." [] none)) with
  | .error msg => rw [hph] at hb; cases hb
  | .ok root =>
    rw [hph] at hb
    simp only [Bind.bind, Except.bind, pure, Except.pure, Except.ok.injEq] at hb
    subst hb
    have hroot : cacheFreeB root = true := by
      refine cacheFree_sPhase1 fs_ entries _ ?_ root hph
      intro r hr
      cases hr
      rfl
    exact cacheFree_collapseFoldersAux true root hroot

/-- The value of `TokenCount` on a child list is the sum of the values on
the children. -/
theorem tokenCountList_val (fs_ : SFS) (cs : List SNode) :
    (tokenCountList fs_ cs).1 = (cs.map (tokenCountVal fs_)).sum := by
  induction cs with
  | nil => rw [tokenCountList]; simp
  | cons c cs ih =>
    rw [tokenCountList]
    simp only [List.map_cons, List.sum_cons, tokenCountVal]
    rw [ih]

/-- Is the node a file (`Type() == File`)? -/
def isFileNodeB : SNode → Bool
  | .file _ _ _ => true
  | .folder _ _ _ => false

theorem tokenCountVal_cacheFree_folder (fs_ : SFS) (nm : String) (cs : List SNode)
    (tc : Option Nat) (hcf : cacheFreeB (.folder nm cs tc) = true) :
    tokenCountVal fs_ (.folder nm cs tc) = (cs.map (tokenCountVal fs_)).sum := by
  simp only [cacheFreeB, Bool.and_eq_true, Option.isNone_iff_eq_none] at hcf
  rw [hcf.1, tokenCountVal, tokenCountM]
  exact tokenCountList_val fs_ cs

/-- C9: in every tree returned by `summary.BuildTree`, the aggregate token
count of a folder node equals the sum of the token counts of its file
children plus the aggregate token counts of its folder children (a file
contributes its own token count). -/
theorem claim_C9_aggregate_weight (fs_ : SFS) (entries : List String) (t : SNode)
    (hb : buildTreeS fs_ entries = .ok t) (sub : SNode) (hocc : SOccursIn sub t)
    (nm : String) (cs : List SNode) (tc : Option Nat)
    (hsub : sub = .folder nm cs tc) :
    tokenCountVal fs_ sub =
      ((cs.filter fun c => isFileNodeB c).map (tokenCountVal fs_)).sum +
      ((cs.filter fun c => !isFileNodeB c).map (tokenCountVal fs_)).sum := by
  subst hsub
  have hcf : cacheFreeB (.folder nm cs tc) = true :=
    cacheFreeB_of_occurs hocc (cacheFree_buildTreeS fs_ entries t hb)
  rw [tokenCountVal_cacheFree_folder fs_ nm cs tc hcf]
  have hperm : List.Perm ((cs.filter fun c => isFileNodeB c) ++
      (cs.filter fun c => !isFileNodeB c)) cs :=
    List.filter_append_perm _ cs
  have := (hperm.map (tokenCountVal fs_)).sum_eq
  rw [← this, List.map_append, List.sum_append]

/-- A two-level file system for the C9 witness. -/
def fsC9 : SFS :=
  { stat := fun p => if p = "a/b.txt" then some false else none
    read := fun _ => none
    tok := fun c => c.length }

def subC9 : SNode := .folder "a" [.file "b.txt" "a/b.txt" none] none

def treeC9 : SNode := .folder "." [subC9] none

theorem claim_C9_aggregate_weight_witness :
    buildTreeS fsC9 ["a/b.txt"] = .ok treeC9 ∧
    tokenCountVal fsC9 subC9 =
      (([SNode.file "b.txt" "a/b.txt" none].filter fun c => isFileNodeB c).map
        (tokenCountVal fsC9)).sum +
      (([SNode.file "b.txt" "a/b.txt" none].filter fun c => !isFileNodeB c).map
        (tokenCountVal fsC9)).sum := by
  have hb : buildTreeS fsC9 ["a/b.txt"] = .ok treeC9 := by
    simp [buildTreeS, sPhase1Step, navInsertS, navChildrenS, freshChainS, splitPath,
      splitChars, collapseFoldersS, collapseFoldersAux, collapseLoopS, fsC9, Bind.bind,
      Except.bind, pure, Except.pure, treeC9, subC9]
  refine ⟨hb, ?_⟩
  exact claim_C9_aggregate_weight fsC9 ["a/b.txt"] treeC9 hb subC9
    (SOccursIn.child (by simp [sChildren, treeC9]) (SOccursIn.refl _))
    "a" [.file "b.txt" "a/b.txt" none] none rfl

/-! ## C5: per-file degradation vs. eager reads -/

/-- A file system whose single file can be stat'ed but not read. -/
def fsC5 : GoFS :=
  { stat := fun p => if p = "a.txt" then some false else none
    read := fun _ => none
    tok := fun c => c.length
    md5f := fun _ => "" }

/-- C5 counterexample: in the `project` builder an unreadable (but
stat-able) file is fatal — `newFileRefFromFS` reads the content eagerly and
`BuildTree` propagates the failure — contradicting the claim that an
unreadable file's content error is never fatal to `BuildTree`. -/
theorem claim_C5_counterexample :
    buildTreeP fsC5 ["a.txt"] = .error "failed to read file a.txt" := by
  simp [buildTreeP, buildPhase1, phase1Step, newFileRefFromFS, fsC5, Bind.bind,
    Except.bind, pure, Except.pure]

/-- C5 as amended: (1) the `summary` builder never reads file content — its
result is independent of the `read` map, so an unreadable file can never
fail that build; (2) a file node's weight is computed lazily on first
request and memoized: a cached weight is returned unchanged (and without
consulting the file system), a repeated request returns the exact same
result, and an unreadable file degrades to weight `0`; (3) in the `project`
builder, by contrast, file content is read eagerly and a stat-able but
unreadable file makes `BuildTree` fail. -/
theorem claim_C5_amended :
    (∀ (st : String → Option Bool) (rd1 rd2 : String → Option (List Nat))
        (tok : List Nat → Nat) (entries : List String),
      buildTreeS ⟨st, rd1, tok⟩ entries = buildTreeS ⟨st, rd2, tok⟩ entries) ∧
    (∀ (fs1 fs2 : SFS) (n p : String) (v : Nat),
      tokenCountM fs1 (.file n p (some v)) = (v, .file n p (some v)) ∧
      tokenCountM fs1 (.file n p (some v)) = tokenCountM fs2 (.file n p (some v))) ∧
    (∀ (fs_ : SFS) (n : SNode), tokenCountM fs_ (tokenCountM fs_ n).2 =
      ((tokenCountM fs_ n).1, (tokenCountM fs_ n).2)) ∧
    (∀ (fs_ : SFS) (n p : String), fs_.read p = none →
      tokenCountM fs_ (.file n p none) = (0, .file n p (some 0))) ∧
    (∀ (fs_ : GoFS) (entry : String), fs_.stat entry = some false →
      fs_.read entry = none → entry ≠ "" →
      buildTreeP fs_ [entry] = .error ("failed to read file " ++ entry)) := by
  refine ⟨?_, ?_, ?_, ?_, ?_⟩
  · intro st rd1 rd2 tok entries
    have hstep : sPhase1Step ⟨st, rd1, tok⟩ = sPhase1Step ⟨st, rd2, tok⟩ := rfl
    rw [buildTreeS, buildTreeS, hstep]
  · intro fs1 fs2 n p v
    exact ⟨by rw [tokenCountM], by rw [tokenCountM, tokenCountM]⟩
  · intro fs_ n
    match n with
    | .file nm p (some v) => rw [tokenCountM]; rw [tokenCountM]
    | .file nm p none =>
      rw [tokenCountM]
      match hr : fs_.read p with
      | some content => simp only [hr]; rw [tokenCountM]
      | none => simp only [hr]; rw [tokenCountM]
    | .folder nm cs (some v) => rw [tokenCountM]; rw [tokenCountM]
    | .folder nm cs none =>
      rw [tokenCountM]
      simp only
      rw [tokenCountM]
  · intro fs_ n p hread
    rw [tokenCountM, hread]
  · intro fs_ entry hstat hread hne
    simp [buildTreeP, buildPhase1, phase1Step, newFileRefFromFS, hstat, hread, hne,
      Bind.bind, Except.bind, pure, Except.pure]

/-- Witness for the amended C5 at concrete inputs. -/
theorem claim_C5_amended_witness :
    fsC5.stat "a.txt" = some false ∧ fsC5.read "a.txt" = none ∧ "a.txt" ≠ "" ∧
    ({ stat := fsC5.stat, read := fun _ => none, tok := fun c => c.length } : SFS).read
        "f" = none ∧
    tokenCountM { stat := fsC5.stat, read := fun _ => none, tok := fun c => c.length }
        (.file "f" "f" none) = (0, .file "f" "f" (some 0)) ∧
    buildTreeP fsC5 ["a.txt"] = .error ("failed to read file " ++ "a.txt") := by
  refine ⟨rfl, rfl, by decide, rfl, ?_, ?_⟩
  · exact (claim_C5_amended.2.2.2.1
      { stat := fsC5.stat, read := fun _ => none, tok := fun c => c.length } "f" "f" rfl)
  · exact claim_C5_amended.2.2.2.2 fsC5 "a.txt" rfl rfl (by decide)

/-! ## C7: the folder-collapsing rule -/

def fC7 : FileRef := { name := "f", tokenCount := 500, md5 := "x" }

def childC7 : PModule := .mk "p/c" [] [fC7] none 0 ""

/-- C7 counterexample: both collapsers fold a single child module even when
that child owns files — the zero-files condition of the code is on the
*parent*, not on the child as the claim states.  `collapseModules` folds
`p → p/c` although `p/c` owns a file, and `collapseFolders` collapses
`dir4 → dir4/dir5` although `dir5` owns a file. -/
theorem claim_C7_counterexample :
    collapseModulesP (.mk "p" [childC7] [] none 0 "") = .mk "p/c" [] [fC7] none 0 "" ∧
    childC7.files ≠ [] ∧
    collapseFoldersAux false
        (.folder "dir4" [.folder "dir5" [.file "a" "d/a" none] none] none) =
      .folder "dir4/dir5" [.file "a" "d/a" none] none := by
  refine ⟨?_, by simp [childC7, PModule.files], ?_⟩
  · simp [collapseModulesP, collapseLoopP, List.attach, List.attachWith, List.pmap,
      childC7, PModule.name, PModule.modules, PModule.files]
  · simp [collapseFoldersAux, collapseLoopS, List.attach, List.attachWith, List.pmap]

/-- The collapsing loop is the identity when its guard fails. -/
theorem collapseLoopP_stop (m : PModule)
    (hnot : ¬(m.modules.length = 1 ∧ m.files = [])) : collapseLoopP m = m := by
  rw [collapseLoopP.eq_def]
  split
  · rename_i n sub a t h
    exact (hnot (by simp [PModule.modules, PModule.files])).elim
  · rfl

/-- The collapsing loop runs until the degenerate shape is gone. -/
theorem collapseLoopP_post (m : PModule) :
    ¬((collapseLoopP m).modules.length = 1 ∧ (collapseLoopP m).files = []) := by
  induction m using collapseLoopP.induct with
  | case1 n sub a t h ih =>
    rw [collapseLoopP]
    exact ih
  | case2 m hstop =>
    rw [collapseLoopP_stop m (by
      rintro ⟨hlen, hfs⟩
      cases m with
      | mk n ms fs a t h =>
        simp only [PModule.modules] at hlen
        simp only [PModule.files] at hfs
        subst hfs
        match ms, hlen with
        | [sub], _ => exact hstop n sub a t h rfl)]
    rintro ⟨hlen, hfs⟩
    cases m with
    | mk n ms fs a t h =>
      simp only [PModule.modules] at hlen
      simp only [PModule.files] at hfs
      subst hfs
      match ms, hlen with
      | [sub], _ => exact hstop n sub a t h rfl

/-- C7 as amended: during the bottom-up pass a non-root module folds its
single child module into itself exactly when the module has exactly one
child module and the module itself has zero files (the child's own files
are simply adopted); names concatenate to parent/child (in the project
variant the child's name is already the full path); the fold repeats until
the shape no longer holds, and the root is never collapsed or renamed. -/
theorem claim_C7_amended :
    (∀ (n : String) (sub : PModule) (a : Option Annotation) (t : Int) (h : String),
      collapseLoopP (.mk n [sub] [] a t h) =
        collapseLoopP (.mk sub.name sub.modules sub.files a t h)) ∧
    (∀ m : PModule, ¬(m.modules.length = 1 ∧ m.files = []) → collapseLoopP m = m) ∧
    (∀ m : PModule, ¬((collapseLoopP m).modules.length = 1 ∧
      (collapseLoopP m).files = [])) ∧
    (∀ (ms : List PModule) (fs : List FileRef) (a : Option Annotation) (t : Int)
        (h : String),
      collapseModulesP (.mk "." ms fs a t h) =
        .mk "." (ms.attach.map fun c => collapseModulesP c.1) fs a t h) ∧
    (∀ (n : String) (ms : List PModule) (fs : List FileRef) (a : Option Annotation)
        (t : Int) (h : String), n ≠ "." →
      collapseModulesP (.mk n ms fs a t h) =
        collapseLoopP (.mk n (ms.attach.map fun c => collapseModulesP c.1) fs a t h)) ∧
    (∀ (name sn : String) (scs : List SNode) (stc tc : Option Nat),
      collapseLoopS name [.folder sn scs stc] tc =
        collapseLoopS (name ++ "/" ++ sn) scs tc) ∧
    (∀ (name : String) (children : List SNode) (tc : Option Nat),
      (∀ (sn : String) (scs : List SNode) (stc : Option Nat),
        children ≠ [SNode.folder sn scs stc]) →
      collapseLoopS name children tc = .folder name children tc) ∧
    (∀ (nm : String) (cs : List SNode) (tc : Option Nat),
      collapseFoldersAux true (.folder nm cs tc) =
        .folder nm (cs.attach.map fun c => collapseFoldersAux false c.1) tc) := by
  refine ⟨?_, ?_, ?_, ?_, ?_, ?_, ?_, ?_⟩
  · intro n sub a t h
    rw [collapseLoopP]
  · exact collapseLoopP_stop
  · exact collapseLoopP_post
  · intro ms fs a t h
    rw [collapseModulesP, if_pos rfl]
  · intro n ms fs a t h hn
    rw [collapseModulesP, if_neg hn]
  · intro name sn scs stc tc
    rw [collapseLoopS]
  · intro name children tc hnot
    rw [collapseLoopS.eq_def]
    split
    · rename_i sn scs stc
      exact (hnot sn scs stc rfl).elim
    · rfl
  · intro nm cs tc
    rw [collapseFoldersAux, if_pos rfl]

/-- Witness for the amended C7 at concrete inputs. -/
theorem claim_C7_amended_witness :
    (¬((PModule.mk "q" [] [fC7] none 0 "").modules.length = 1 ∧
      (PModule.mk "q" [] [fC7] none 0 "").files = [])) ∧
    collapseLoopP (.mk "q" [] [fC7] none 0 "") = .mk "q" [] [fC7] none 0 "" ∧
    (∀ (sn : String) (scs : List SNode) (stc : Option Nat),
      ([SNode.file "a" "a" none] : List SNode) ≠ [SNode.folder sn scs stc]) ∧
    collapseLoopS "q" [SNode.file "a" "a" none] none =
      .folder "q" [SNode.file "a" "a" none] none := by
  have h1 : ¬((PModule.mk "q" [] [fC7] none 0 "").modules.length = 1 ∧
      (PModule.mk "q" [] [fC7] none 0 "").files = []) := by
    simp [PModule.modules, PModule.files]
  have h2 : ∀ (sn : String) (scs : List SNode) (stc : Option Nat),
      ([SNode.file "a" "a" none] : List SNode) ≠ [SNode.folder sn scs stc] := by
    intro sn scs stc
    simp
  exact ⟨h1, claim_C7_amended.2.1 _ h1, h2, claim_C7_amended.2.2.2.2.2.2.1 "q" _ none h2⟩

/-! ## C1: the BudgetRebalancer merge condition -/

/-- Aggregate (recursive) token weight of a module: the sum of the weights
of all files transitively owned. -/
def aggTokens : PModule → Int
  | .mk _ ms fs _ _ _ => (fs.map FileRef.tokenCount).sum + aggTokensList ms
where
  aggTokensList : List PModule → Int
    | [] => 0
    | m :: ms => aggTokens m + aggTokensList ms

def fSmallC1 : FileRef := { name := "f500", tokenCount := 500, md5 := "a" }

def fBigC1 : FileRef := { name := "fbig", tokenCount := 5000, md5 := "b" }

def subC1 : PModule := .mk "c/s" [] [fBigC1] none 5000 ""

def childC1 : PModule := .mk "c" [subC1] [fSmallC1] none 500 ""

/-- C1 counterexample: `collapseByTokens` compares the child's *direct*
(`localTokenCount`) weight against MIN, not its aggregate weight.  After the
rebuild pass populates the direct weights, the child `c` has aggregate
weight 5500 ≥ MIN = 1000, so by the claim it must not be merged; the code
merges it anyway (its direct weight 500 is below MIN), absorbing its file
and hoisting its submodule, and the parent's counter grows by 500 — the
child's direct weight, not its aggregate 5500. -/
theorem claim_C1_counterexample :
    rebuildWithNewModule (.mk "." [.mk "c" [.mk "c/s" [] [fBigC1] none 0 ""]
        [fSmallC1] none 0 ""] [] none 0 "") = .mk "." [childC1] [] none 0 "" ∧
    aggTokens childC1 = 5500 ∧ minTokenCountPerModule = 1000 ∧
    collapseByTokensP (.mk "." [childC1] [] none 0 "") =
      .mk "." [subC1] [fSmallC1] none 500 "" := by
  refine ⟨?_, ?_, rfl, ?_⟩
  · simp [rebuildWithNewModule, newModule, List.attach, List.attachWith, List.pmap,
      childC1, subC1, fSmallC1, fBigC1, FileRef.tokenCount]
  · simp [aggTokens, aggTokens.aggTokensList, childC1, subC1, fSmallC1, fBigC1,
      FileRef.tokenCount]
  · simp [collapseByTokensP, scanMerge, List.attach, List.attachWith, List.pmap,
      childC1, subC1, fSmallC1, fBigC1, PModule.localTokenCount, PModule.modules,
      PModule.files, minTokenCountPerModule, maxTokenCountPerModule]

mutual

/-- Every module of the tree has a non-negative `localTokenCount` (true of
every tree the pipeline produces: direct weights are sums of non-negative
tokenizer outputs). -/
def heredNonnegB : PModule → Bool
  | .mk _ ms _ _ t _ => decide (0 ≤ t) && heredNonnegListB ms

def heredNonnegListB : List PModule → Bool
  | [] => true
  | m :: ms => heredNonnegB m && heredNonnegListB ms

end

theorem heredNonnegListB_iff (ms : List PModule) :
    heredNonnegListB ms = true ↔ ∀ m ∈ ms, heredNonnegB m = true := by
  induction ms with
  | nil => simp [heredNonnegListB]
  | cons x xs ih => simp [heredNonnegListB, ih]

theorem heredNonnegListB_append (xs ys : List PModule) :
    heredNonnegListB (xs ++ ys) = (heredNonnegListB xs && heredNonnegListB ys) := by
  induction xs with
  | nil => simp [heredNonnegListB]
  | cons x xs ih => simp [heredNonnegListB, ih, Bool.and_assoc]

/-- Scan invariant: with non-negative weights in the worklist, the running
counter never decreases, the surviving children keep their hereditary
non-negativity, and every surviving child with direct weight below MIN was
rejected because the counter plus its weight exceeded MAX. -/
theorem scanMerge_post (remaining kept : List PModule) (files : List FileRef)
    (local_ : Int)
    (hrem : heredNonnegListB remaining = true)
    (hkeptN : heredNonnegListB kept = true)
    (hkept : ∀ C ∈ kept, C.localTokenCount < minTokenCountPerModule →
      local_ + C.localTokenCount > maxTokenCountPerModule) :
    local_ ≤ (scanMerge remaining kept files local_).2.2 ∧
    heredNonnegListB (scanMerge remaining kept files local_).1 = true ∧
    ∀ C ∈ (scanMerge remaining kept files local_).1,
      C.localTokenCount < minTokenCountPerModule →
      (scanMerge remaining kept files local_).2.2 + C.localTokenCount >
        maxTokenCountPerModule := by
  induction remaining, kept, files, local_ using scanMerge.induct with
  | case1 kept files local_ =>
    rw [scanMerge]
    exact ⟨le_refl _, hkeptN, hkept⟩
  | case2 kept files local_ child rest hcond ih =>
    rw [scanMerge, if_pos hcond]
    simp only [heredNonnegListB, Bool.and_eq_true] at hrem
    have hchild : 0 ≤ child.localTokenCount := by
      obtain ⟨h1, _⟩ := hrem
      cases child with
      | mk n ms fs a t h =>
        simp only [heredNonnegB, Bool.and_eq_true, decide_eq_true_eq] at h1
        exact h1.1
    have hrem2 : heredNonnegListB (rest ++ child.modules) = true := by
      rw [heredNonnegListB_append]
      obtain ⟨h1, h2⟩ := hrem
      cases child with
      | mk n ms fs a t h =>
        simp only [heredNonnegB, Bool.and_eq_true] at h1
        simp [h2, h1.2, PModule.modules]
    have hkept2 : ∀ C ∈ kept, C.localTokenCount < minTokenCountPerModule →
        (local_ + child.localTokenCount) + C.localTokenCount >
          maxTokenCountPerModule := by
      intro C hC hlt
      have := hkept C hC hlt
      omega
    obtain ⟨hle, hksN, hpost⟩ := ih hrem2 hkeptN hkept2
    exact ⟨le_trans (by omega) hle, hksN, hpost⟩
  | case3 kept files local_ child rest hcond ih =>
    rw [scanMerge, if_neg hcond]
    simp only [heredNonnegListB, Bool.and_eq_true] at hrem
    have hkeptN2 : heredNonnegListB (kept ++ [child]) = true := by
      rw [heredNonnegListB_append]
      simp [hkeptN, heredNonnegListB, hrem.1]
    have hkept2 : ∀ C ∈ kept ++ [child], C.localTokenCount < minTokenCountPerModule →
        local_ + C.localTokenCount > maxTokenCountPerModule := by
      intro C hC hlt
      rcases List.mem_append.mp hC with hC | hC
      · exact hkept C hC hlt
      · rcases List.mem_singleton.mp hC with rfl
        rcases not_and_or.mp hcond with hc | hc
        · exact (hc hlt).elim
        · omega
    exact ih hrem.2 hkeptN2 hkept2

/-- `collapseByTokens` keeps all direct weights non-negative. -/
theorem heredNonneg_collapseByTokensP (m : PModule)
    (hm : heredNonnegB m = true) : heredNonnegB (collapseByTokensP m) = true := by
  induction m using collapseByTokensP.induct with
  | case1 n ms fs a t h ih =>
    rw [collapseByTokensP]
    simp only [heredNonnegB, Bool.and_eq_true, decide_eq_true_eq,
      heredNonnegListB_iff] at hm
    have hms : heredNonnegListB (ms.attach.map fun c => collapseByTokensP c.1) = true := by
      rw [List.attach_map_val ms collapseByTokensP, heredNonnegListB_iff]
      intro c hc
      obtain ⟨c0, hc0, rfl⟩ := List.mem_map.mp hc
      exact ih ⟨c0, hc0⟩ (hm.2 c0 hc0)
    obtain ⟨hle, hksN, _⟩ := scanMerge_post _ [] fs t hms rfl (by intro C hC; cases hC)
    simp only [heredNonnegB, Bool.and_eq_true, decide_eq_true_eq]
    exact ⟨le_trans hm.1 hle, hksN⟩

/-- C1 as amended: during rebalancing a scanned child is merged into the
current module if and only if the child's *direct* weight
(`localTokenCount`) is below MIN and the module's accumulated direct weight
plus the child's direct weight is at most MAX; on a merge, the child's
files are appended, its submodules are hoisted to the end of the scan list,
and the counter grows by the child's direct weight.  Consequently (for
trees with the pipeline's non-negative weights) every child module that
survives rebalancing with direct weight below MIN would have pushed the
final direct weight of its parent beyond MAX. -/
theorem claim_C1_amended :
    (∀ (child : PModule) (rest kept : List PModule) (files : List FileRef)
        (local_ : Int),
      scanMerge (child :: rest) kept files local_ =
        if child.localTokenCount < minTokenCountPerModule ∧
            local_ + child.localTokenCount ≤ maxTokenCountPerModule then
          scanMerge (rest ++ child.modules) kept (files ++ child.files)
            (local_ + child.localTokenCount)
        else scanMerge rest (kept ++ [child]) files local_) ∧
    (∀ m : PModule, heredNonnegB m = true →
      ∀ C ∈ (collapseByTokensP m).modules,
        C.localTokenCount < minTokenCountPerModule →
        (collapseByTokensP m).localTokenCount + C.localTokenCount >
          maxTokenCountPerModule) := by
  constructor
  · intro child rest kept files local_
    rw [scanMerge]
  · intro m hm C hC hlt
    cases m with
    | mk n ms fs a t h =>
      rw [collapseByTokensP] at hC ⊢
      simp only [PModule.modules, PModule.localTokenCount] at hC ⊢
      simp only [heredNonnegB, Bool.and_eq_true, decide_eq_true_eq,
        heredNonnegListB_iff] at hm
      have hms : heredNonnegListB (ms.attach.map fun c => collapseByTokensP c.1)
          = true := by
        rw [List.attach_map_val ms collapseByTokensP, heredNonnegListB_iff]
        intro c hc
        obtain ⟨c0, hc0, rfl⟩ := List.mem_map.mp hc
        exact heredNonneg_collapseByTokensP c0 (hm.2 c0 hc0)
      obtain ⟨_, _, hpost⟩ := scanMerge_post _ [] fs t hms rfl (by intro C hC; cases hC)
      exact hpost C hC hlt

/-- The kept child for the C1 witness: direct weight 200. -/
def keptC1 : PModule := .mk "x" [] [{ name := "f", tokenCount := 200, md5 := "" }] none 200 ""

/-- The parent for the C1 witness: accumulated direct weight 99950. -/
def parentC1 : PModule := .mk "r" [keptC1] [] none 99950 ""

/-- Witness for the amended C1 at a concrete input: a child of direct
weight 200 (< MIN) facing a parent whose accumulated direct weight is
99950 survives the scan, and 99950 + 200 > 100000. -/
theorem claim_C1_amended_witness :
    heredNonnegB parentC1 = true ∧
    keptC1 ∈ (collapseByTokensP parentC1).modules ∧
    keptC1.localTokenCount < minTokenCountPerModule ∧
    (collapseByTokensP parentC1).localTokenCount + keptC1.localTokenCount >
      maxTokenCountPerModule := by
  have heval : collapseByTokensP parentC1 = parentC1 := by
    simp [collapseByTokensP, scanMerge, List.attach, List.attachWith, List.pmap,
      PModule.localTokenCount, PModule.modules, PModule.files, parentC1, keptC1,
      minTokenCountPerModule, maxTokenCountPerModule]
  have hhn : heredNonnegB parentC1 = true := by
    simp [heredNonnegB, heredNonnegListB, parentC1, keptC1]
  have hmem : keptC1 ∈ (collapseByTokensP parentC1).modules := by
    rw [heval]
    simp [parentC1, PModule.modules]
  have hlt : keptC1.localTokenCount < minTokenCountPerModule := by
    simp [keptC1, PModule.localTokenCount, minTokenCountPerModule]
  exact ⟨hhn, hmem, hlt, claim_C1_amended.2 parentC1 hhn keptC1 hmem hlt⟩

/-! ## C6: `Metadata.Patch` -/

/-- Strip every annotation of the tree (for comparing hierarchies modulo
annotations). -/
def eraseAnn : PModule → PModule
  | .mk n ms fs _ t h => .mk n (ms.attach.map fun c => eraseAnn c.1) fs none t h
termination_by m => pmodSize m
decreasing_by
  have := pmodListSize_mem_lt c.2
  simp only [pmodSize]
  omega

mutual

/-- Every module of the tree is unannotated (the state of a freshly built
snapshot). -/
def allUnannB : PModule → Bool
  | .mk _ ms _ a _ _ => a.isNone && allUnannListB ms

def allUnannListB : List PModule → Bool
  | [] => true
  | m :: ms => allUnannB m && allUnannListB ms

end

theorem allUnannListB_iff (ms : List PModule) :
    allUnannListB ms = true ↔ ∀ m ∈ ms, allUnannB m = true := by
  induction ms with
  | nil => simp [allUnannListB]
  | cons x xs ih => simp [allUnannListB, ih]

theorem eraseAnn_of_allUnann (m : PModule) (hm : allUnannB m = true) :
    eraseAnn m = m := by
  induction m using eraseAnn.induct with
  | _ n ms fs a t h ih =>
    rw [eraseAnn]
    simp only [allUnannB, Bool.and_eq_true, Option.isNone_iff_eq_none,
      allUnannListB_iff] at hm
    rw [List.attach_map_val ms eraseAnn]
    have hmap : ms.map eraseAnn = ms := by
      conv_rhs => rw [show ms = ms.map id from (List.map_id ms).symm]
      exact List.map_congr_left fun c hc => ih ⟨c, hc⟩ (hm.2 c hc)
    rw [hmap, hm.1]

mutual

/-- Membership in the `collectModuleMap` association list is exactly
occurrence in the tree, keyed by the module's own name. -/
theorem mem_collectModuleMap : ∀ (old : PModule) (k : String) (v : PModule),
    (k, v) ∈ collectModuleMap old ↔ k = v.name ∧ POccursIn v old
  | .mk n ms fs a t h, k, v => by
    rw [collectModuleMap]
    constructor
    · intro he
      rcases List.mem_cons.mp he with heq | he
      · obtain ⟨rfl, rfl⟩ := Prod.mk.injEq .. |>.mp heq
        exact ⟨rfl, POccursIn.refl _⟩
      · obtain ⟨hk, c, hc, hocc⟩ := (mem_collectList ms k v).mp he
        refine ⟨hk, POccursIn.child ?_ hocc⟩
        simp only [PModule.modules]
        exact hc
    · rintro ⟨rfl, hocc⟩
      cases hocc with
      | refl => exact List.mem_cons_self _ _
      | child hmem hsub =>
        rename_i c
        apply List.mem_cons_of_mem
        apply (mem_collectList ms v.name v).mpr
        simp only [PModule.modules] at hmem
        exact ⟨rfl, c, hmem, hsub⟩

theorem mem_collectList : ∀ (ms : List PModule) (k : String) (v : PModule),
    (k, v) ∈ collectModuleMap.collectList ms ↔
      k = v.name ∧ ∃ c ∈ ms, POccursIn v c
  | [], k, v => by simp [collectModuleMap.collectList]
  | m :: ms, k, v => by
    rw [collectModuleMap.collectList, List.mem_append,
      mem_collectList ms k v, mem_collectModuleMap m k v]
    constructor
    · rintro (⟨hk, hocc⟩ | ⟨hk, c, hc, hocc⟩)
      · exact ⟨hk, m, by simp, hocc⟩
      · exact ⟨hk, c, by simp [hc], hocc⟩
    · rintro ⟨hk, c, hc, hocc⟩
      rcases List.mem_cons.mp hc with rfl | hc
      · exact Or.inl ⟨hk, hocc⟩
      · exact Or.inr ⟨hk, c, hc, hocc⟩

end

theorem find_key (l : List (String × PModule)) (hnd : (l.map Prod.fst).Nodup)
    (n : String) (v : PModule) :
    (n, v) ∈ l ↔ (l.find? fun p => p.1 = n) = some (n, v) := by
  induction l with
  | nil => simp
  | cons e tl ih =>
    obtain ⟨k, w⟩ := e
    simp only [List.map_cons, List.nodup_cons, List.mem_map] at hnd
    rw [List.find?]
    by_cases hk : k = n
    · subst hk
      simp only [decide_True]
      constructor
      · intro hmem
        rcases List.mem_cons.mp hmem with heq | hmem
        · obtain ⟨-, rfl⟩ := Prod.mk.injEq .. |>.mp heq
          rfl
        · exact (hnd.1 ⟨(k, v), hmem, rfl⟩).elim
      · intro heq
        obtain ⟨-, rfl⟩ := Prod.mk.injEq .. |>.mp (Option.some.injEq .. |>.mp heq).symm
        exact List.mem_cons_self _ _
    · have : (decide (k = n)) = false := by simp [hk]
      rw [this]
      rw [List.mem_cons]
      constructor
      · rintro (heq | hmem)
        · obtain ⟨h1, -⟩ := Prod.mk.injEq .. |>.mp heq
          exact (hk h1.symm).elim
        · exact (ih hnd.2 |>.mp hmem)
      · intro hfind
        exact Or.inr (ih hnd.2 |>.mpr hfind)

theorem lookupModule_eq {assoc : List (String × PModule)}
    (hnd : (assoc.map Prod.fst).Nodup) (n : String) (v : PModule) :
    (n, v) ∈ assoc ↔ lookupModule assoc n = some v := by
  have hndr : (assoc.reverse.map Prod.fst).Nodup := by
    rw [List.map_reverse]
    exact List.nodup_reverse.mpr hnd
  rw [lookupModule]
  constructor
  · intro hmem
    rw [(find_key assoc.reverse hndr n v).mp (List.mem_reverse.mpr hmem)]
    rfl
  · intro hl
    match hf : assoc.reverse.find? fun p => p.1 = n with
    | none => rw [hf] at hl; cases hl
    | some e =>
      rw [hf] at hl
      obtain ⟨e1, e2⟩ := e
      have hp := List.find?_some hf
      simp only [decide_eq_true_eq] at hp
      subst hp
      simp only [Option.map_some'] at hl
      cases hl
      exact List.mem_reverse.mp (List.mem_of_find?_eq_some hf)

/-- The annotation `mergeAnnotations` writes at a single node. -/
def mergeAnnTop (oldMap : List (String × PModule)) (nm : String) (a : Option Annotation)
    (h : String) : Option Annotation :=
  match lookupModule oldMap nm with
  | some old => if old.md5 = h ∧ old.annotation ≠ none then old.annotation else a
  | none => a

theorem mergeAnnTop_some (oldMap : List (String × PModule)) (nm : String)
    (a : Option Annotation) (h : String) (om : PModule)
    (hl : lookupModule oldMap nm = some om) :
    mergeAnnTop oldMap nm a h =
      if om.md5 = h ∧ om.annotation ≠ none then om.annotation else a := by
  rw [mergeAnnTop, hl]

theorem mergeAnnTop_none (oldMap : List (String × PModule)) (nm : String)
    (a : Option Annotation) (h : String)
    (hl : lookupModule oldMap nm = none) :
    mergeAnnTop oldMap nm a h = a := by
  rw [mergeAnnTop, hl]

theorem mergeAnnotationsP_eq (oldMap : List (String × PModule)) (n : String)
    (ms : List PModule) (fs : List FileRef) (a : Option Annotation) (t : Int)
    (h : String) :
    mergeAnnotationsP oldMap (.mk n ms fs a t h) =
      .mk n (ms.map (mergeAnnotationsP oldMap)) fs (mergeAnnTop oldMap n a h) t h := by
  rw [mergeAnnotationsP]
  rw [List.attach_map_val ms (mergeAnnotationsP oldMap)]
  rfl

theorem subAt_merge (oldMap : List (String × PModule)) (m : PModule) (p : List Nat) :
    subAt (mergeAnnotationsP oldMap m) p = (subAt m p).map (mergeAnnotationsP oldMap) := by
  induction p generalizing m with
  | nil => rw [subAt, subAt]; rfl
  | cons i p ih =>
    cases m with
    | mk n ms fs a t h =>
      rw [mergeAnnotationsP_eq, subAt, subAt]
      simp only [PModule.modules, List.get?_map]
      match hg : ms.get? i with
      | none => rfl
      | some c => exact ih c

theorem subAt_occurs {m d : PModule} {p : List Nat} (hs : subAt m p = some d) :
    POccursIn d m := by
  induction p generalizing m with
  | nil => rw [subAt] at hs; cases hs; exact POccursIn.refl _
  | cons i p ih =>
    rw [subAt] at hs
    match hg : m.modules.get? i with
    | none => rw [hg] at hs; cases hs
    | some c =>
      rw [hg] at hs
      exact POccursIn.child (List.get?_mem hg) (ih hs)

theorem allUnannB_of_occurs {d n : PModule} (hocc : POccursIn d n)
    (hn : allUnannB n = true) : allUnannB d = true := by
  induction hocc with
  | refl => exact hn
  | child hmem hsub ih =>
    apply ih
    rename_i c m
    cases m with
    | mk nm ms fs a t h =>
      simp only [PModule.modules] at hmem
      simp only [allUnannB, Bool.and_eq_true, allUnannListB_iff] at hn
      exact hn.2 c hmem

theorem eraseAnn_merge (oldMap : List (String × PModule)) (m : PModule) :
    eraseAnn (mergeAnnotationsP oldMap m) = eraseAnn m := by
  induction m using eraseAnn.induct with
  | _ n ms fs a t h ih =>
    rw [mergeAnnotationsP_eq, eraseAnn, eraseAnn]
    rw [List.attach_map_val _ eraseAnn, List.attach_map_val ms eraseAnn, List.map_map]
    congr 1
    apply List.map_congr_left
    intro c hc
    exact ih ⟨c, hc⟩

/-- C6: `Metadata.Patch`.  For a stored tree with globally unique module
names (true of built trees, whose module names are full paths) and a fresh
snapshot that is entirely unannotated (as `buildMetadata` produces): the
patched metadata keeps the receiver's `Root`, its hierarchy becomes exactly
the fresh snapshot's hierarchy (names, files, weights and fingerprints come
from the fresh tree; modules present only in the old tree are gone), and a
fresh module carries an annotation if and only if a module of the same name
exists in the old tree with the same MD5 and a non-nil annotation — in
which case it carries exactly that old annotation; all other fresh modules
end with no annotation. -/
theorem claim_C6_patch (r1 r2 : String) (old fresh : PModule)
    (hnodup : ((collectModuleMap old).map Prod.fst).Nodup)
    (hfresh : allUnannB fresh = true) :
    (patchP ⟨r1, some old⟩ ⟨r2, some fresh⟩).root = r1 ∧
    ∃ res, (patchP ⟨r1, some old⟩ ⟨r2, some fresh⟩).modules = some res ∧
      eraseAnn res = fresh ∧
      (∀ (p : List Nat) (fm : PModule), subAt fresh p = some fm →
        ∃ rm, subAt res p = some rm ∧
          rm.name = fm.name ∧ rm.files = fm.files ∧ rm.md5 = fm.md5 ∧
          rm.localTokenCount = fm.localTokenCount ∧
          (∀ om : PModule, POccursIn om old → om.name = fm.name → om.md5 = fm.md5 →
            om.annotation ≠ none → rm.annotation = om.annotation) ∧
          ( rm.annotation ≠ none →
            ∃ om, POccursIn om old ∧ om.name = fm.name ∧ om.md5 = fm.md5 ∧
              om.annotation = rm.annotation)) := by
  constructor
  · rw [patchP]
  · refine ⟨mergeAnnotationsP (collectModuleMap old) fresh, by rw [patchP], ?_, ?_⟩
    · rw [eraseAnn_merge]
      exact eraseAnn_of_allUnann fresh hfresh
    · intro p fm hp
      refine ⟨mergeAnnotationsP (collectModuleMap old) fm, ?_, ?_⟩
      · rw [subAt_merge, hp]
        rfl
      · have hfm : allUnannB fm = true :=
          allUnannB_of_occurs (subAt_occurs hp) hfresh
        cases fm with
        | mk n ms fs a t h =>
          have ha : a = none := by
            simp only [allUnannB, Bool.and_eq_true, Option.isNone_iff_eq_none] at hfm
            exact hfm.1
          subst ha
          rw [mergeAnnotationsP_eq]
          refine ⟨rfl, rfl, rfl, rfl, ?_, ?_⟩
          · intro om hocc hname hmd5 hann
            have hname2 : om.name = n := by simpa [PModule.name] using hname
            have hmd52 : om.md5 = h := by simpa [PModule.md5] using hmd5
            have hmem : (n, om) ∈ collectModuleMap old :=
              (mem_collectModuleMap old n om).mpr ⟨hname2.symm, hocc⟩
            have hl := (lookupModule_eq hnodup n om).mp hmem
            show mergeAnnTop (collectModuleMap old) n none h = om.annotation
            rw [mergeAnnTop_some _ _ _ _ om hl, if_pos ⟨hmd52, hann⟩]
          · intro hann
            have hann2 : mergeAnnTop (collectModuleMap old) n none h ≠ none := hann
            match hl : lookupModule (collectModuleMap old) n with
            | none =>
              rw [mergeAnnTop_none _ _ _ _ hl] at hann2
              exact (hann2 rfl).elim
            | some om =>
              rw [mergeAnnTop_some _ _ _ _ om hl] at hann2
              by_cases hcond : om.md5 = h ∧ om.annotation ≠ none
              · rw [if_pos hcond] at hann2
                have hmem := (lookupModule_eq hnodup n om).mpr hl
                obtain ⟨hk, hocc⟩ := (mem_collectModuleMap old n om).mp hmem
                refine ⟨om, hocc, hk.symm, by
                  simpa [PModule.md5] using hcond.1, ?_⟩
                show om.annotation = mergeAnnTop (collectModuleMap old) n none h
                rw [mergeAnnTop_some _ _ _ _ om hl, if_pos hcond]
              · rw [if_neg hcond] at hann2
                exact (hann2 rfl).elim

/-- Old tree for the C6 witness: two annotated modules, `a` (later
unchanged) and `b` (whose fingerprint will change). -/
def oldC6 : PModule :=
  .mk "." [.mk "a" [] [] (some ⟨"ea", "ia", "pa"⟩) 10 "ha",
           .mk "b" [] [] (some ⟨"eb", "ib", "pb"⟩) 20 "hb"] [] (some ⟨"e", "i", "p"⟩) 0 "hr"

/-- Fresh tree for the C6 witness: same names, `a` keeps fingerprint `ha`,
`b` changed to `hb2`, a brand-new module `c`; all unannotated. -/
def freshC6 : PModule :=
  .mk "." [.mk "a" [] [] none 11 "ha",
           .mk "b" [] [] none 21 "hb2",
           .mk "c" [] [] none 5 "hc"] [] none 0 "hr2"

/-- Witness for C6 at concrete inputs: the hypotheses hold and the patched
root keeps the stored `Root` marker. -/
theorem claim_C6_patch_witness :
    ((collectModuleMap oldC6).map Prod.fst).Nodup ∧ allUnannB freshC6 = true ∧
    (patchP ⟨".", some oldC6⟩ ⟨".", some freshC6⟩).root = "." := by
  have h1 : ((collectModuleMap oldC6).map Prod.fst).Nodup := by
    rw [show (collectModuleMap oldC6).map Prod.fst = [".", "a", "b"] from by
      simp [collectModuleMap, collectModuleMap.collectList, oldC6]]
    decide
  have h2 : allUnannB freshC6 = true := by
    simp [allUnannB, allUnannListB, freshC6]
  exact ⟨h1, h2, (claim_C6_patch "." "." oldC6 freshC6 h1 h2).1⟩

/-! ## C2, C3, C4: the annotation scheduler -/

theorem subAt_append (t : PModule) (p q : List Nat) :
    subAt t (p ++ q) = (subAt t p).bind (fun m => subAt m q) := by
  induction p generalizing t with
  | nil => rw [subAt]; rfl
  | cons i p ih =>
    rw [List.cons_append, subAt, subAt]
    match hg : t.modules.get? i with
    | none => rfl
    | some c => exact ih c

mutual

/-- Every address that resolves to a module is listed by the post-order
collection. -/
theorem mem_postOrderPaths : ∀ (t : PModule) (pre p : List Nat) (m : PModule),
    subAt t p = some m → (pre ++ p) ∈ postOrderPaths t pre
  | t, pre, [], m => by
    intro hs
    cases t with
    | mk n ms fs a lt h =>
      rw [postOrderPaths]
      simp
  | t, pre, i :: p, m => by
    intro hs
    rw [subAt] at hs
    match hg : t.modules.get? i with
    | none => rw [hg] at hs; cases hs
    | some c =>
      rw [hg] at hs
      cases t with
      | mk n ms fs a lt h =>
        rw [postOrderPaths]
        apply List.mem_append_left
        simp only [PModule.modules] at hg
        have := mem_postOrderList ms pre 0 i c hg p m hs
        simpa using this

theorem mem_postOrderList : ∀ (ms : List PModule) (pre : List Nat) (j i : Nat)
    (c : PModule), ms.get? i = some c → ∀ (p : List Nat) (m : PModule),
    subAt c p = some m →
    (pre ++ (j + i) :: p) ∈ postOrderPaths.postOrderList ms pre j
  | [], pre, j, i, c => by intro hg; cases hg
  | x :: xs, pre, j, i, c => by
    intro hg p m hs
    rw [postOrderPaths.postOrderList]
    match i, hg with
    | 0, hg =>
      apply List.mem_append_left
      have hxc : x = c := by
        rw [List.get?] at hg
        exact Option.some.injEq .. |>.mp hg
      subst hxc
      have := mem_postOrderPaths x (pre ++ [j]) p m hs
      simpa using this
    | Nat.succ i, hg =>
      apply List.mem_append_right
      have := mem_postOrderList xs pre (j + 1) i c hg p m hs
      have harith : j + 1 + i = j + (i + 1) := by omega
      rwa [harith] at this

end

/-- C2 as amended: in every execution of `annotate`, for every unannotated
module M and every unannotated strict descendant D of M such that every
module strictly between M and D is also unannotated, D's task closes its
completion channel strictly before M's task begins its summarization call.
(The direct-child case is the unconditional "equivalently" half of the
original claim; a *pre-annotated* module strictly between M and D breaks
the chain, as the counterexample shows, because its channel is closed
up-front without waiting for its own children.) -/
theorem claim_C2_amended (t : PModule) (ora : Oracle) (tr : List AEvent)
    (hv : ValidTrace t ora tr) (p suffix : List Nat) (hsuf : suffix ≠ [])
    (hM : unannAt t p) (hD : unannAt t (p ++ suffix))
    (hmid : ∀ k, 0 < k → k < suffix.length → unannAt t (p ++ suffix.take k)) :
    idxIn tr (.done (p ++ suffix)) < idxIn tr (.start p) := by
  induction suffix generalizing p with
  | nil => exact (hsuf rfl).elim
  | cons i rest ih =>
    obtain ⟨M, hMs, hMa⟩ := hM
    obtain ⟨D, hDs, hDa⟩ := hD
    have hpmem : p ∈ postOrderPaths t [] := by
      have := mem_postOrderPaths t [] p M hMs
      simpa using this
    have hchild : ∃ c, subAt t (p ++ [i]) = some c := by
      have hsplit : p ++ i :: rest = (p ++ [i]) ++ rest := by simp
      rw [hsplit, subAt_append] at hDs
      match hc : subAt t (p ++ [i]) with
      | none => rw [hc] at hDs; cases hDs
      | some c => exact ⟨c, rfl⟩
    obtain ⟨c, hc⟩ := hchild
    have hilen : i < M.modules.length := by
      rw [subAt_append, hMs] at hc
      have hc2 : subAt M [i] = some c := hc
      rw [subAt] at hc2
      match hg : M.modules.get? i with
      | none => rw [hg] at hc2; cases hc2
      | some c0 =>
        obtain ⟨hlt, -⟩ := List.get?_eq_some.mp hg
        exact hlt
    have hdirect : unannAt t (p ++ [i]) →
        idxIn tr (.done (p ++ [i])) < idxIn tr (.start p) := by
      intro hu
      exact hv.2.2.2 p hpmem ⟨M, hMs, hMa⟩ M hMs i hilen hu
    cases rest with
    | nil =>
      exact hdirect ⟨D, hDs, hDa⟩
    | cons j rest2 =>
      have hmid1 : unannAt t (p ++ [i]) := by
        have := hmid 1 (by omega) (by simp)
        simpa using this
      have hsplit : p ++ i :: j :: rest2 = (p ++ [i]) ++ j :: rest2 := by simp
      have hih : idxIn tr (.done ((p ++ [i]) ++ j :: rest2)) <
          idxIn tr (.start (p ++ [i])) := by
        apply ih (p ++ [i]) (by simp) hmid1
        · rw [← hsplit]
          exact ⟨D, hDs, hDa⟩
        · intro k hk1 hk2
          have hk2b : k + 1 < (i :: j :: rest2).length := by
            simp only [List.length_cons] at hk2 ⊢
            omega
          have := hmid (k + 1) (by omega) hk2b
          have htake : p ++ (i :: (j :: rest2)).take (k + 1) =
              (p ++ [i]) ++ (j :: rest2).take k := by
            simp [List.take_cons]
          rwa [htake] at this
      have hcm : (p ++ [i]) ∈ postOrderPaths t [] := by
        have := mem_postOrderPaths t [] (p ++ [i]) c hc
        simpa using this
      have hmida : idxIn tr (.start (p ++ [i])) < idxIn tr (.done (p ++ [i])) :=
        (hv.2.2.1 (p ++ [i]) hcm hmid1).2.2.2.1
      have hlast := hdirect hmid1
      rw [hsplit]
      omega

/-- Tree for the C2 counterexample: unannotated root, pre-annotated child
`m` (carried over by the IncrementalPatcher), unannotated grandchild
`m/d`. -/
def tC2 : PModule :=
  .mk "." [.mk "m" [.mk "m/d" [] [] none 0 ""] [] (some ⟨"x", "y", "z"⟩) 0 ""] [] none 0 ""

def oraC2 : Oracle := fun _ => .ok ⟨"s1", "s2", "s3"⟩

/-- A schedule in which the root starts (its only child's channel is
pre-closed) while the grandchild's task has not even started. -/
def trC2 : List AEvent := [.start [], .done [], .start [0, 0], .done [0, 0]]

/-- C2 counterexample: a valid execution of `annotate` in which the root's
summarization starts strictly before the task of its unannotated
descendant `m/d` completes — possible because the intermediate module `m`
is pre-annotated, so its `dones` channel is closed before launch and the
root does not transitively wait. -/
theorem claim_C2_counterexample :
    ValidTrace tC2 oraC2 trC2 ∧ unannAt tC2 [] ∧ unannAt tC2 [0, 0] ∧
    (∃ m, subAt tC2 [0] = some m ∧ m.annotation ≠ none) ∧
    idxIn trC2 (.start []) < idxIn trC2 (.done [0, 0]) := by
  decide

/-- Fully unannotated chain and its sequential schedule, for the C2
witness. -/
def tW2 : PModule :=
  .mk "." [.mk "m" [.mk "m/d" [] [] none 0 ""] [] none 0 ""] [] none 0 ""

def trW2 : List AEvent :=
  [.start [0, 0], .done [0, 0], .start [0], .done [0], .start [], .done []]

/-- Witness for the amended C2 at a concrete input. -/
theorem claim_C2_amended_witness :
    ValidTrace tW2 oraC2 trW2 ∧
    idxIn trW2 (.done ([] ++ [0, 0])) < idxIn trW2 (.start []) := by
  have hv : ValidTrace tW2 oraC2 trW2 := by decide
  refine ⟨hv, ?_⟩
  apply claim_C2_amended tW2 oraC2 trW2 hv [] [0, 0] (by decide) (by decide) (by decide)
  intro k h1 h2
  simp only [List.length_cons, List.length_nil] at h2
  have hk : k = 1 := by omega
  subst hk
  decide

mutual

/-- The error list of the sequential schedule is empty exactly when no
unannotated module's summarizer fails. -/
theorem annotateSeq_errors_iff : ∀ (ora : Oracle) (t : PModule) (pre : List Nat),
    (annotateSeq ora t pre).2 = [] ↔
      ∀ (q : List Nat) (m : PModule), subAt t q = some m → m.annotation = none →
        ∀ e, ora (pre ++ q) ≠ .error e
  | ora, .mk n ms fs a lt h, pre => by
    have hlist := annotateSeqList_errors_iff ora ms pre 0
    have hsplit : ∀ (P : Prop), ((∀ (q : List Nat) (m : PModule),
        subAt (.mk n ms fs a lt h) q = some m → m.annotation = none →
          ∀ e, ora (pre ++ q) ≠ .error e) ↔
        ((∀ e, PModule.annotation (PModule.mk n ms fs a lt h) = none →
          ora pre ≠ .error e) ∧
         (∀ (k : Nat) (c : PModule), ms.get? k = some c →
          ∀ (q : List Nat) (m : PModule), subAt c q = some m →
            m.annotation = none → ∀ e, ora (pre ++ (0 + k) :: q) ≠ .error e))) := by
      intro _
      constructor
      · intro hall
        constructor
        · intro e ha
          have := hall [] (.mk n ms fs a lt h) (by rw [subAt]) ha e
          simpa using this
        · intro k c hk q m hq hm e
          have hsub : subAt (.mk n ms fs a lt h) (k :: q) = some m := by
            rw [subAt]
            simp only [PModule.modules]
            rw [hk]
            exact hq
          have := hall (k :: q) m hsub hm e
          simpa using this
      · rintro ⟨hself, hkids⟩ q m hq hm e
        match q, hq with
        | [], hq =>
          rw [subAt] at hq
          cases hq
          have := hself e hm
          simpa using this
        | k :: q', hq =>
          rw [subAt] at hq
          simp only [PModule.modules] at hq
          match hg : ms.get? k with
          | none => rw [hg] at hq; cases hq
          | some c =>
            rw [hg] at hq
            have := hkids k c hg q' m hq hm e
            simpa using this
    match a with
    | some a0 =>
      rw [annotateSeq, hsplit True, hlist]
      simp [ PModule.annotation]
    | none =>
      rw [annotateSeq.eq_def]
      match ho : ora pre with
      | .ok ann =>
        simp only [ho]
        rw [hsplit True, hlist]
        simp [ PModule.annotation, ho]
      | .error e =>
        simp only [ho]
        rw [hsplit True]
        constructor
        · intro habs
          exact (List.append_ne_nil_of_right_ne_nil _ (by simp) habs).elim
        · rintro ⟨hself, -⟩
          exact ((hself e (by simp [ PModule.annotation])) ho).elim

theorem annotateSeqList_errors_iff : ∀ (ora : Oracle) (ms : List PModule)
    (pre : List Nat) (i : Nat),
    (annotateSeq.annotateSeqList ora ms pre i).2 = [] ↔
      ∀ (k : Nat) (c : PModule), ms.get? k = some c →
        ∀ (q : List Nat) (m : PModule), subAt c q = some m → m.annotation = none →
          ∀ e, ora (pre ++ (i + k) :: q) ≠ .error e
  | ora, [], pre, i => by
    rw [annotateSeq.annotateSeqList]
    simp
  | ora, c :: cs, pre, i => by
    rw [annotateSeq.annotateSeqList]
    simp only [List.append_eq_nil]
    rw [annotateSeq_errors_iff ora c (pre ++ [i]),
      annotateSeqList_errors_iff ora cs pre (i + 1)]
    constructor
    · rintro ⟨hhead, htail⟩ k c' hk q m hq hm e
      match k, hk with
      | 0, hk =>
        have hcc : c = c' := by
          rw [List.get?] at hk
          exact Option.some.injEq .. |>.mp hk
        subst hcc
        have := hhead q m hq hm e
        simpa using this
      | Nat.succ k, hk =>
        have := htail k c' hk q m hq hm e
        have harith : i + 1 + k = i + (k + 1) := by omega
        rwa [harith] at this
    · intro hall
      constructor
      · intro q m hq hm e
        have := hall 0 c rfl q m hq hm e
        simpa using this
      · intro k c' hk q m hq hm e
        have := hall (k + 1) c' hk q m hq hm e
        have harith : i + (k + 1) = i + 1 + k := by omega
        rwa [harith] at this

end

/-- Tree and oracle for the C3 counterexample: the only child's
summarization fails, the root's succeeds. -/
def tC3 : PModule := .mk "." [.mk "c" [] [] none 0 ""] [] none 0 ""

def oraC3 : Oracle := fun p => if p = [0] then .error "boom" else .ok ⟨"e", "i", "p"⟩

/-- C3 counterexample: when a child's annotation task fails, the parent is
*not* aborted — the child's failure only closes its channel ("Signal done
to avoid blocking parents"), the parent's `createAnnotation` is still
invoked and its annotation is written, while the child's error is collected
and surfaced to the caller. -/
theorem claim_C3_counterexample :
    (annotateSeq oraC3 tC3 []).2 =
      ["failed to create annotation for module c: boom"] ∧
    PModule.annotation (annotateSeq oraC3 tC3 []).1 = some ⟨"e", "i", "p"⟩ := by
  constructor
  · rfl
  · rfl

/-- C3 as amended: a failed child does not abort its parent.  In the
scheduler's data-flow (modelled by the sequential schedule, which every
valid execution's per-module outcomes coincide with), a module's final
annotation depends only on its own prior annotation and its own oracle
outcome — never on any descendant's failure — and the error list collected
by `annotate` is empty exactly when no unannotated module's summarization
failed, so child failures are reported to the caller rather than
propagated as an abort of the parent. -/
theorem claim_C3_amended : ∀ (ora : Oracle) (t : PModule) (pre : List Nat),
    (PModule.annotation (annotateSeq ora t pre).1 =
      match t.annotation with
      | some a => some a
      | none => (ora pre).toOption) ∧
    ((annotateSeq ora t pre).2 = [] ↔
      ∀ (q : List Nat) (m : PModule), subAt t q = some m → m.annotation = none →
        ∀ e, ora (pre ++ q) ≠ .error e) := by
  intro ora t pre
  constructor
  · cases t with
    | mk n ms fs a lt h =>
      match a with
      | some a0 => rw [annotateSeq]; rfl
      | none =>
        rw [annotateSeq.eq_def]
        match ho : ora pre with
        | .ok ann => simp [ho, PModule.annotation, Except.toOption]
        | .error e => simp [ho, PModule.annotation, Except.toOption]
  · exact annotateSeq_errors_iff ora t pre

/-- Tree for the C4 counterexample: two failing sibling tasks. -/
def tC4 : PModule :=
  .mk "." [.mk "a" [] [] none 0 "", .mk "b" [] [] none 0 ""] [] none 0 ""

def oraC4 : Oracle := fun p =>
  if p = [0] then .error "errA"
  else if p = [1] then .error "errB"
  else .ok ⟨"e", "i", "p"⟩

/-- A valid schedule in which the later-discovered module `b` fails before
the earlier-discovered `a`. -/
def trC4 : List AEvent :=
  [.start [0], .start [1], .fail [1], .done [1], .fail [0], .done [0],
   .start [], .done []]

/-- C4 counterexample: `annotate` surfaces the first error *sent on
`errCh`*, i.e. the first failure in completion order.  In this valid
execution the surfaced error belongs to `b` (path `[1]`) although the
first failing module in discovery (post-order) order is `a` (path `[0]`). -/
theorem claim_C4_counterexample :
    ValidTrace tC4 oraC4 trC4 ∧ surfacedFail trC4 = some [1] ∧
    firstDiscoveryFail tC4 oraC4 = some [0] ∧ ([1] : List Nat) ≠ [0] := by
  decide

/-- C4 as amended: in every valid execution, the set of failure reports is
exactly the set of unannotated modules whose summarizer errs (no task is
canceled and no failure is lost), the caller sees an error exactly when
some task failed, and every launched task both starts and completes.  The
error that is surfaced is the head of the failure reports in *completion*
order, which coincides with discovery order only for sequential schedules
(the counterexample exhibits a valid completion order that differs). -/
theorem claim_C4_amended (t : PModule) (ora : Oracle) (tr : List AEvent)
    (hv : ValidTrace t ora tr) :
    (∀ p : List Nat, AEvent.fail p ∈ tr ↔
      (p ∈ postOrderPaths t [] ∧ unannAt t p ∧ ∃ e, ora p = .error e)) ∧
    (surfacedFail tr = none ↔
      ∀ p ∈ postOrderPaths t [], unannAt t p → ∀ e, ora p ≠ .error e) ∧
    (∀ p ∈ postOrderPaths t [], unannAt t p →
      AEvent.start p ∈ tr ∧ AEvent.done p ∈ tr) := by
  obtain ⟨hnd, hev, hcomp, hwait⟩ := hv
  have hfail : ∀ p : List Nat, AEvent.fail p ∈ tr ↔
      (p ∈ postOrderPaths t [] ∧ unannAt t p ∧ ∃ e, ora p = .error e) := by
    intro p
    constructor
    · intro hin
      obtain ⟨hmem, hu⟩ := hev (.fail p) hin
      simp only [AEvent.path] at hmem hu
      exact ⟨hmem, hu, ((hcomp p hmem hu).2.2.1).mp hin⟩
    · rintro ⟨hmem, hu, he⟩
      exact ((hcomp p hmem hu).2.2.1).mpr he
  refine ⟨hfail, ?_, ?_⟩
  · rw [surfacedFail]
    constructor
    · intro hnone p hmem hu e herr
      have hfind : (tr.find? fun e => match e with | .fail _ => true | _ => false)
          = none := by
        match hf : tr.find? fun e => match e with | .fail _ => true | _ => false with
        | none => exact hf
        | some ev => rw [hf] at hnone; cases hnone
      have : AEvent.fail p ∉ tr := by
        intro hin
        have := List.find?_eq_none.mp hfind _ hin
        simp at this
      exact this ((hfail p).mpr ⟨hmem, hu, e, herr⟩)
    · intro hno
      match hf : tr.find? fun e => match e with | .fail _ => true | _ => false with
      | none => rw [hf]; rfl
      | some ev =>
        have hin := List.mem_of_find?_eq_some hf
        have hp := List.find?_some hf
        match ev, hp with
        | .fail p, _ =>
          obtain ⟨hmem, hu, e, herr⟩ := (hfail p).mp hin
          exact (hno p hmem hu e herr).elim
  · intro p hmem hu
    exact ⟨(hcomp p hmem hu).1, (hcomp p hmem hu).2.1⟩

/-- Witness for the amended C4 at the counterexample's concrete
execution. -/
theorem claim_C4_amended_witness :
    ValidTrace tC4 oraC4 trC4 ∧
    (AEvent.fail [1] ∈ trC4 ↔
      ([1] ∈ postOrderPaths tC4 [] ∧ unannAt tC4 [1] ∧
        ∃ e, oraC4 [1] = .error e)) := by
  have hv : ValidTrace tC4 oraC4 trC4 := by decide
  exact ⟨hv, (claim_C4_amended tC4 oraC4 trC4 hv).1 [1]⟩

/-! ## C8: the shape postcondition of the whole build pipeline -/

mutual

/-- The subtree rooted at the module contains at least one file. -/
def hasFileB : PModule → Bool
  | .mk _ ms fs _ _ _ => !fs.isEmpty || hasFileListB ms

def hasFileListB : List PModule → Bool
  | [] => false
  | m :: ms => hasFileB m || hasFileListB ms

end

mutual

theorem hasFileB_iff : ∀ m : PModule, hasFileB m = true ↔ pFilesM m ≠ 0
  | .mk n ms fs a t h => by
    rw [hasFileB, pFilesM_mk]
    rw [Bool.or_eq_true, Bool.not_eq_true']
    rw [hasFileListB_iff ms]
    constructor
    · rintro (hfs | hms) habs
      · rw [AddLeftCancelMonoid.add_eq_zero] at habs
        rw [Multiset.coe_eq_zero] at habs
        rw [List.isEmpty_eq_false] at hfs
        exact hfs habs.1
      · rw [AddLeftCancelMonoid.add_eq_zero] at habs
        exact hms habs.2
    · intro hne
      by_cases hfs : fs.isEmpty = true
      · right
        intro habs
        apply hne
        rw [AddLeftCancelMonoid.add_eq_zero]
        refine ⟨?_, habs⟩
        rw [Multiset.coe_eq_zero]
        exact List.isEmpty_iff.mp hfs
      · left
        exact Bool.not_eq_true _ |>.mp hfs

theorem hasFileListB_iff : ∀ ms : List PModule,
    hasFileListB ms = true ↔ pFilesM.pFilesList ms ≠ 0
  | [] => by
    rw [hasFileListB, pFilesM.pFilesList]
    simp
  | m :: ms => by
    rw [hasFileListB, pFilesM.pFilesList]
    rw [Bool.or_eq_true, hasFileB_iff m, hasFileListB_iff ms]
    constructor
    · rintro (hm | hms) habs
      · rw [AddLeftCancelMonoid.add_eq_zero] at habs
        exact hm habs.1
      · rw [AddLeftCancelMonoid.add_eq_zero] at habs
        exact hms habs.2
    · intro hne
      by_cases hm : pFilesM m = 0
      · right
        intro habs
        exact hne (by rw [AddLeftCancelMonoid.add_eq_zero]; exact ⟨hm, habs⟩)
      · left
        exact hm

end

/-- An acceptable non-root module name: neither the root marker `"."` nor
empty. -/
def nameOkStr (n : String) : Bool := !(n = ".") && !(n = "")

mutual

/-- Invariant of every non-root subtree of the phase-1 tree: a proper name
and at least one file somewhere below, hereditarily. -/
def preOkB : PModule → Bool
  | .mk n ms fs a t h =>
    nameOkStr n && hasFileB (.mk n ms fs a t h) && preOkListB ms

def preOkListB : List PModule → Bool
  | [] => true
  | m :: ms => preOkB m && preOkListB ms

end

mutual

/-- Invariant of every non-root subtree after the collapsing pass: a proper
name, a file somewhere below, and not the degenerate single-child-no-files
shape, hereditarily. -/
def allOkB : PModule → Bool
  | .mk n ms fs a t h =>
    nameOkStr n && hasFileB (.mk n ms fs a t h) &&
      !(decide (ms.length = 1) && fs.isEmpty) && allOkListB ms

def allOkListB : List PModule → Bool
  | [] => true
  | m :: ms => allOkB m && allOkListB ms

end

theorem preOkListB_iff (ms : List PModule) :
    preOkListB ms = true ↔ ∀ m ∈ ms, preOkB m = true := by
  induction ms with
  | nil => simp [preOkListB]
  | cons x xs ih => simp [preOkListB, ih]

theorem allOkListB_iff (ms : List PModule) :
    allOkListB ms = true ↔ ∀ m ∈ ms, allOkB m = true := by
  induction ms with
  | nil => simp [allOkListB]
  | cons x xs ih => simp [allOkListB, ih]

theorem allOkB_occurs {d c : PModule} (hocc : POccursIn d c)
    (hc : allOkB c = true) : allOkB d = true := by
  induction hocc with
  | refl => exact hc
  | child hmem hsub ih =>
    apply ih
    rename_i e m
    cases m with
    | mk n ms fs a t h =>
      simp only [PModule.modules] at hmem
      rw [allOkB, Bool.and_eq_true, Bool.and_eq_true, Bool.and_eq_true] at hc
      exact (allOkListB_iff ms).mp hc.2 e hmem

/-- A clean relative path entry: nonempty, and every `/`-separated segment
nonempty and different from `"."`. -/
def cleanEntry (e : String) : Prop :=
  e ≠ "" ∧ ∀ part ∈ splitPath e, part ≠ "" ∧ part ≠ "."

/-- A clean path segment yields an acceptable module name when joined below
an acceptable (or root-level) prefix. -/
theorem nameOkStr_join (a b : String) (hb : b ≠ "") :
    nameOkStr (joinPath a b) = true := by
  rw [nameOkStr, joinPath]
  have hdata : (a ++ "/" ++ b).data = a.data ++ ('/' :: b.data) := by
    rw [String.data_append, String.data_append]
    rw [List.append_assoc]
    rfl
  have hbne : b.data ≠ [] := by
    intro habs
    apply hb
    cases b with
    | mk l => cases habs; rfl
  have h1 : ¬(a ++ "/" ++ b) = "." := by
    intro habs
    have hd := congrArg String.data habs
    rw [hdata] at hd
    have hlen := congrArg List.length hd
    rw [List.length_append] at hlen
    simp only [List.length_cons] at hlen
    have hbl : 0 < b.data.length := List.length_pos.mpr hbne
    simp only [List.length_nil] at hlen
    omega
  have h2 : ¬(a ++ "/" ++ b) = "" := by
    intro habs
    have hd := congrArg String.data habs
    rw [hdata] at hd
    have hlen := congrArg List.length hd
    rw [List.length_append] at hlen
    simp at hlen
  simp [h1, h2]

theorem preOk_hasFile {m : PModule} (hm : preOkB m = true) : hasFileB m = true := by
  cases m with
  | mk n ms fs a t h =>
    rw [preOkB, Bool.and_eq_true, Bool.and_eq_true] at hm
    exact hm.1.2

theorem hasFileListB_of_preOk {ms : List PModule} (hne : ms ≠ [])
    (hall : ∀ c ∈ ms, preOkB c = true) : hasFileListB ms = true := by
  match ms with
  | [] => exact (hne rfl).elim
  | c :: cs =>
    rw [hasFileListB, Bool.or_eq_true]
    exact Or.inl (preOk_hasFile (hall c (by simp)))

theorem navChildren_ne_nil (ms : List PModule) (cfn : String) (rest : List String)
    (f : FileRef) : navChildren ms cfn rest f ≠ [] := by
  rw [navChildren.eq_def]
  match ms with
  | [] => simp
  | sub :: tail =>
    by_cases hs : sub.name = cfn
    · simp [hs]
    · simp [hs]

theorem freshChain_preOk (name : String) (rest : List String) (f : FileRef)
    (hn : nameOkStr name = true) (hrest : ∀ part ∈ rest, part ≠ "") :
    preOkB (freshChain name rest f) = true := by
  induction rest generalizing name with
  | nil =>
    rw [freshChain, preOkB, hasFileB]
    simp [hn, preOkListB]
  | cons c rs ih =>
    rw [freshChain]
    have hsub : preOkB (freshChain (joinPath name c) rs f) = true := by
      apply ih (joinPath name c) (nameOkStr_join name c (hrest c (by simp)))
      intro part hp
      exact hrest part (by simp [hp])
    simp [preOkB, hasFileB, hasFileListB, preOkListB, hn, hsub, preOk_hasFile hsub]

mutual

theorem navInsert_preOk (m : PModule) (parts : List String) (f : FileRef)
    (hm : preOkB m = true) (hparts : ∀ part ∈ parts, part ≠ "" ∧ part ≠ ".") :
    preOkB (navInsert m parts f) = true := by
  match m, parts with
  | .mk n ms fs a t h, [] =>
    rw [navInsert]
    rw [preOkB, Bool.and_eq_true, Bool.and_eq_true] at hm ⊢
    refine ⟨⟨by simpa [PModule.name] using hm.1.1, ?_⟩,
      by simpa [PModule.modules] using hm.2⟩
    rw [hasFileB]
    simp [PModule.files]
  | .mk n ms fs a t h, chunk :: rest =>
    rw [navInsert]
    rw [preOkB, Bool.and_eq_true, Bool.and_eq_true] at hm
    have hnOk : nameOkStr n = true := by simpa [PModule.name] using hm.1.1
    have hnne : ¬(n = ".") := by
      rw [nameOkStr, Bool.and_eq_true] at hnOk
      simpa using hnOk.1
    have hcfn : (if (PModule.mk n ms fs a t h).name = "." then chunk
        else joinPath (PModule.mk n ms fs a t h).name chunk) =
        joinPath n chunk := by
      simp [PModule.name, hnne]
    rw [hcfn]
    have hkids : ∀ c ∈ navChildren ms (joinPath n chunk) rest f, preOkB c = true := by
      apply navChildren_preOk ms (joinPath n chunk) rest f
      · intro c hc
        exact (preOkListB_iff ms).mp (by simpa [PModule.modules] using hm.2) c hc
      · exact nameOkStr_join n chunk (hparts chunk (by simp)).1
      · intro part hp
        exact hparts part (by simp [hp])
    rw [preOkB, Bool.and_eq_true, Bool.and_eq_true]
    refine ⟨⟨by simpa [PModule.name] using hm.1.1, ?_⟩, ?_⟩
    · rw [hasFileB, Bool.or_eq_true]
      right
      exact hasFileListB_of_preOk (navChildren_ne_nil _ _ _ _) hkids
    · rw [preOkListB_iff]
      exact hkids
termination_by (parts.length, 0)
decreasing_by
  apply Prod.Lex.left
  simp

theorem navChildren_preOk (ms : List PModule) (cfn : String) (rest : List String)
    (f : FileRef) (hall : ∀ c ∈ ms, preOkB c = true) (hcfn : nameOkStr cfn = true)
    (hrest : ∀ part ∈ rest, part ≠ "" ∧ part ≠ ".") :
    ∀ c ∈ navChildren ms cfn rest f, preOkB c = true := by
  match ms with
  | [] =>
    rw [navChildren]
    intro c hc
    rw [List.mem_singleton.mp hc]
    exact freshChain_preOk cfn rest f hcfn fun part hp => (hrest part hp).1
  | sub :: tail =>
    rw [navChildren]
    by_cases hs : sub.name = cfn
    · rw [if_pos hs]
      intro c hc
      rcases List.mem_cons.mp hc with rfl | hc
      · exact navInsert_preOk sub rest f (hall sub (by simp)) hrest
      · exact hall c (by simp [hc])
    · rw [if_neg hs]
      intro c hc
      rcases List.mem_cons.mp hc with rfl | hc
      · exact hall c (by simp)
      · exact navChildren_preOk tail cfn rest f
          (fun c2 hc2 => hall c2 (by simp [hc2])) hcfn hrest c hc
termination_by (rest.length, ms.length)
decreasing_by
  · apply Prod.Lex.right
    simp only [List.length_cons]
    omega
  · apply Prod.Lex.right
    simp only [List.length_cons]
    omega

end

theorem navInsert_root_ok (m : PModule) (parts : List String) (f : FileRef)
    (hname : m.name = ".") (hkids : ∀ c ∈ m.modules, preOkB c = true)
    (hparts : ∀ part ∈ parts, part ≠ "" ∧ part ≠ ".") :
    (navInsert m parts f).name = "." ∧
      ∀ c ∈ (navInsert m parts f).modules, preOkB c = true := by
  cases m with
  | mk n ms fs a t h =>
    have hn : n = "." := by simpa [PModule.name] using hname
    cases parts with
    | nil =>
      rw [navInsert]
      refine ⟨by simp [PModule.name, hn], ?_⟩
      intro c hc
      exact hkids c (by simpa [PModule.modules] using hc)
    | cons chunk rest =>
      rw [navInsert]
      have hcfn : (if (PModule.mk n ms fs a t h).name = "." then chunk
          else joinPath (PModule.mk n ms fs a t h).name chunk) = chunk := by
        simp [PModule.name, hn]
      rw [hcfn]
      refine ⟨by simp [PModule.name, hn], ?_⟩
      intro c hc
      refine navChildren_preOk ms chunk rest f ?_ ?_ ?_ c
        (by simpa [PModule.modules] using hc)
      · intro c2 hc2
        exact hkids c2 (by simpa [PModule.modules] using hc2)
      · have := hparts chunk (by simp)
        simp [nameOkStr, this.1, this.2]
      · intro part hp
        exact hparts part (by simp [hp])

theorem phase1_root_ok (fs_ : GoFS) (entries : List String) (acc : Except String PModule)
    (hclean : ∀ e ∈ entries, cleanEntry e)
    (hacc : ∀ r, acc = .ok r → r.name = "." ∧ ∀ c ∈ r.modules, preOkB c = true) :
    ∀ r, entries.foldl (phase1Step fs_) acc = .ok r →
      r.name = "." ∧ ∀ c ∈ r.modules, preOkB c = true := by
  induction entries generalizing acc with
  | nil => exact hacc
  | cons e es ih =>
    intro r hr
    refine ih (phase1Step fs_ acc e) (fun e2 he2 => hclean e2 (by simp [he2])) ?_ r hr
    intro r' hr'
    rw [phase1Step] at hr'
    match hacc2 : acc with
    | .error msg =>
      simp only [Bind.bind, Except.bind] at hr'
      cases hr'
    | .ok base =>
      have hbase := hacc base rfl
      simp only [Bind.bind, Except.bind] at hr'
      by_cases he : e = ""
      · rw [if_pos he] at hr'
        cases hr'
        exact hbase
      · rw [if_neg he] at hr'
        match hst : fs_.stat e with
        | none => rw [hst] at hr'; cases hr'
        | some true => rw [hst] at hr'; cases hr'; exact hbase
        | some false =>
          rw [hst] at hr'
          simp only [Bind.bind, Except.bind] at hr'
          match hfr : newFileRefFromFS fs_ e with
          | .error msg => rw [hfr] at hr'; cases hr'
          | .ok fr =>
            rw [hfr] at hr'
            cases hr'
            exact navInsert_root_ok base _ fr hbase.1 hbase.2
              (fun part hp =>
                (hclean e (by simp)).2 part ((List.dropLast_sublist _).subset hp))

theorem collapseLoopP_allOk (m : PModule)
    (hname : nameOkStr m.name = true)
    (hfile : hasFileB m = true)
    (hkids : allOkListB m.modules = true) :
    allOkB (collapseLoopP m) = true := by
  induction m using collapseLoopP.induct with
  | case1 n sub a t h ih =>
    rw [collapseLoopP]
    have hsub : allOkB sub = true := by
      simp only [PModule.modules, allOkListB, Bool.and_eq_true] at hkids
      exact hkids.1
    cases sub with
    | mk sn sms sfs sa st sh =>
      rw [allOkB, Bool.and_eq_true, Bool.and_eq_true, Bool.and_eq_true] at hsub
      apply ih
      · simpa [PModule.name] using hsub.1.1.1
      · have := hsub.1.1.2
        rw [hasFileB] at this
        rw [hasFileB]
        simpa [PModule.name, PModule.modules, PModule.files] using this
      · simpa [PModule.modules] using hsub.2
  | case2 m hstop =>
    have heq : collapseLoopP m = m := by
      rw [collapseLoopP.eq_def]
      cases m with
      | mk n ms fs a t h =>
        match ms, fs with
        | [], _ => rfl
        | [sub], f :: fs => rfl
        | [sub], [] => exact (hstop n sub a t h rfl).elim
        | s1 :: s2 :: rest, _ => rfl
    rw [heq]
    cases m with
    | mk n ms fs a t h =>
      rw [allOkB, Bool.and_eq_true, Bool.and_eq_true, Bool.and_eq_true]
      refine ⟨⟨⟨by simpa [PModule.name] using hname,
        by simpa using hfile⟩, ?_⟩, by simpa [PModule.modules] using hkids⟩
      match ms, fs with
      | [], _ => simp
      | [sub], f :: fs => simp
      | [sub], [] => exact (hstop n sub a t h rfl).elim
      | s1 :: s2 :: rest, _ => simp

theorem collapseModulesP_allOk (m : PModule) (hm : preOkB m = true) :
    allOkB (collapseModulesP m) = true := by
  induction m using collapseModulesP.induct with
  | case1 ms fs a t h ih =>
    rw [preOkB, Bool.and_eq_true, Bool.and_eq_true] at hm
    have : nameOkStr "." = true := hm.1.1
    simp [nameOkStr] at this
  | case2 n ms fs a t h hroot ih =>
    rw [collapseModulesP, if_neg hroot]
    rw [preOkB, Bool.and_eq_true, Bool.and_eq_true] at hm
    apply collapseLoopP_allOk
    · simpa [PModule.name] using hm.1.1
    · rw [hasFileB_iff]
      rw [pFilesM_mk, List.attach_map_val ms collapseModulesP,
        pFilesList_map fun c hc => pFilesM_collapseModulesP c]
      rw [hasFileB_iff] at hm
      have := hm.1.2
      rw [pFilesM_mk] at this
      exact this
    · simp only [PModule.modules]
      rw [allOkListB_iff]
      intro c hc
      rw [List.attach_map_val ms collapseModulesP] at hc
      obtain ⟨c0, hc0, rfl⟩ := List.mem_map.mp hc
      exact ih ⟨c0, hc0⟩ ((preOkListB_iff ms).mp hm.2 c0 hc0)

theorem collapseModulesP_root (m : PModule) (hname : m.name = ".")
    (hkids : ∀ c ∈ m.modules, preOkB c = true) :
    (collapseModulesP m).name = "." ∧
      ∀ c ∈ (collapseModulesP m).modules, allOkB c = true := by
  cases m with
  | mk n ms fs a t h =>
    have hn : n = "." := by simpa [PModule.name] using hname
    subst hn
    rw [collapseModulesP, if_pos rfl]
    refine ⟨by simp [PModule.name], ?_⟩
    intro c hc
    simp only [PModule.modules] at hc
    rw [List.attach_map_val ms collapseModulesP] at hc
    obtain ⟨c0, hc0, rfl⟩ := List.mem_map.mp hc
    exact collapseModulesP_allOk c0 (hkids c0 (by simpa [PModule.modules] using hc0))

theorem scanMerge_allOk (remaining kept : List PModule) (files : List FileRef)
    (local_ : Int) :
    (∀ c ∈ remaining, allOkB c = true) → (∀ c ∈ kept, allOkB c = true) →
    ∀ c ∈ (scanMerge remaining kept files local_).1, allOkB c = true := by
  induction remaining, kept, files, local_ using scanMerge.induct with
  | case1 kept files local_ =>
    intro _ hkept
    rw [scanMerge]
    exact hkept
  | case2 kept files local_ child rest hcond ih =>
    intro hrem hkept
    rw [scanMerge, if_pos hcond]
    refine ih ?_ hkept
    intro c hc
    rcases List.mem_append.mp hc with hc | hc
    · exact hrem c (List.mem_cons_of_mem _ hc)
    · have hchild := hrem child (List.mem_cons_self _ _)
      cases child with
      | mk n ms fs a t h =>
        rw [allOkB, Bool.and_eq_true, Bool.and_eq_true, Bool.and_eq_true] at hchild
        exact (allOkListB_iff ms).mp hchild.2 c (by simpa [PModule.modules] using hc)
  | case3 kept files local_ child rest hcond ih =>
    intro hrem hkept
    rw [scanMerge, if_neg hcond]
    refine ih (fun c hc => hrem c (List.mem_cons_of_mem _ hc)) ?_
    intro c hc
    rcases List.mem_append.mp hc with hc | hc
    · exact hkept c hc
    · rw [List.mem_singleton.mp hc]
      exact hrem child (List.mem_cons_self _ _)

theorem scanMerge_count (remaining kept : List PModule) (files : List FileRef)
    (local_ : Int) :
    (∀ c ∈ remaining, allOkB c = true) →
    (scanMerge remaining kept files local_).2.1 = [] →
    files = [] ∧
      kept.length + remaining.length ≤ (scanMerge remaining kept files local_).1.length := by
  induction remaining, kept, files, local_ using scanMerge.induct with
  | case1 kept files local_ =>
    rw [scanMerge]
    intro _ h2
    exact ⟨h2, by simp⟩
  | case2 kept files local_ child rest hcond ih =>
    rw [scanMerge, if_pos hcond]
    intro hrem h2
    have hchild := hrem child (List.mem_cons_self _ _)
    have hremOk : ∀ c ∈ rest ++ child.modules, allOkB c = true := by
      intro c hc
      rcases List.mem_append.mp hc with hc | hc
      · exact hrem c (List.mem_cons_of_mem _ hc)
      · cases child with
        | mk n ms fs a t h =>
          rw [allOkB, Bool.and_eq_true, Bool.and_eq_true, Bool.and_eq_true] at hchild
          exact (allOkListB_iff ms).mp hchild.2 c (by simpa [PModule.modules] using hc)
    obtain ⟨hfe, hlen⟩ := ih hremOk h2
    obtain ⟨hfiles, hcf⟩ := List.append_eq_nil.mp hfe
    refine ⟨hfiles, ?_⟩
    have hms2 : 2 ≤ child.modules.length := by
      cases child with
      | mk n ms fs a t h =>
        have hfs : fs = [] := by simpa [PModule.files] using hcf
        subst hfs
        rw [allOkB, Bool.and_eq_true, Bool.and_eq_true, Bool.and_eq_true] at hchild
        have hhf : hasFileListB ms = true := by
          have := hchild.1.1.2
          rw [hasFileB] at this
          simpa using this
        have hne : ms ≠ [] := by
          intro habs
          subst habs
          rw [hasFileListB] at hhf
          cases hhf
        have hlen1 : ¬(ms.length = 1) := by
          have := hchild.1.2
          intro habs
          simp [habs] at this
        simp only [PModule.modules]
        cases ms with
        | nil => exact (hne rfl).elim
        | cons m1 mrest =>
          cases mrest with
          | nil => simp at hlen1
          | cons m2 mrest2 => simp
          [List.length_cons]
    rw [List.length_append] at hlen
    simp only [List.length_cons]
    omega
  | case3 kept files local_ child rest hcond ih =>
    rw [scanMerge, if_neg hcond]
    intro hrem h2
    obtain ⟨hf, hlen⟩ := ih (fun c hc => hrem c (List.mem_cons_of_mem _ hc)) h2
    refine ⟨hf, ?_⟩
    rw [List.length_append] at hlen
    simp only [List.length_cons, List.length_singleton] at hlen ⊢
    omega

theorem pFilesM_rebuild (m : PModule) :
    pFilesM (rebuildWithNewModule m) = pFilesM m := by
  induction m using rebuildWithNewModule.induct with
  | case1 n ms fs a t h ih =>
    rw [rebuildWithNewModule, newModule, pFilesM_mk, pFilesM_mk,
      List.attach_map_val ms rebuildWithNewModule,
      pFilesList_map fun c hc => ih ⟨c, hc⟩]

theorem rebuild_allOk (m : PModule) (hm : allOkB m = true) :
    allOkB (rebuildWithNewModule m) = true := by
  induction m using rebuildWithNewModule.induct with
  | case1 n ms fs a t h ih =>
    rw [rebuildWithNewModule, newModule]
    rw [allOkB, Bool.and_eq_true, Bool.and_eq_true, Bool.and_eq_true] at hm
    rw [allOkB, Bool.and_eq_true, Bool.and_eq_true, Bool.and_eq_true]
    have hlen : (ms.attach.map fun c => rebuildWithNewModule c.1).length = ms.length := by
      simp
    refine ⟨⟨⟨hm.1.1.1, ?_⟩, ?_⟩, ?_⟩
    · rw [hasFileB_iff, pFilesM_mk, List.attach_map_val ms rebuildWithNewModule,
        pFilesList_map fun c hc => pFilesM_rebuild c]
      have hf := hm.1.1.2
      rw [hasFileB_iff, pFilesM_mk] at hf
      exact hf
    · rw [hlen]
      exact hm.1.2
    · rw [allOkListB_iff]
      intro c hc
      rw [List.attach_map_val ms rebuildWithNewModule] at hc
      obtain ⟨c0, hc0, rfl⟩ := List.mem_map.mp hc
      exact ih ⟨c0, hc0⟩ ((allOkListB_iff ms).mp hm.2 c0 hc0)

theorem rebuild_root (m : PModule) (hname : m.name = ".")
    (hkids : ∀ c ∈ m.modules, allOkB c = true) :
    (rebuildWithNewModule m).name = "." ∧
      ∀ c ∈ (rebuildWithNewModule m).modules, allOkB c = true := by
  cases m with
  | mk n ms fs a t h =>
    have hn : n = "." := by simpa [PModule.name] using hname
    rw [rebuildWithNewModule, newModule]
    refine ⟨by simpa [PModule.name] using hn, ?_⟩
    intro c hc
    simp only [PModule.modules] at hc
    rw [List.attach_map_val ms rebuildWithNewModule] at hc
    obtain ⟨c0, hc0, rfl⟩ := List.mem_map.mp hc
    exact rebuild_allOk c0 (hkids c0 (by simpa [PModule.modules] using hc0))

theorem collapseByTokensP_allOk (m : PModule) (hm : allOkB m = true) :
    allOkB (collapseByTokensP m) = true := by
  induction m using collapseByTokensP.induct with
  | case1 n ms fs a t h ih =>
    have heq : collapseByTokensP (.mk n ms fs a t h) =
        .mk n (scanMerge (ms.attach.map fun c => collapseByTokensP c.1) [] fs t).1
          (scanMerge (ms.attach.map fun c => collapseByTokensP c.1) [] fs t).2.1 a
          (scanMerge (ms.attach.map fun c => collapseByTokensP c.1) [] fs t).2.2 h := by
      rw [collapseByTokensP]
    rw [allOkB, Bool.and_eq_true, Bool.and_eq_true, Bool.and_eq_true] at hm
    have hksOk : ∀ c ∈ ms.attach.map (fun c => collapseByTokensP c.1),
        allOkB c = true := by
      intro c hc
      rw [List.attach_map_val ms collapseByTokensP] at hc
      obtain ⟨c0, hc0, rfl⟩ := List.mem_map.mp hc
      exact ih ⟨c0, hc0⟩ ((allOkListB_iff ms).mp hm.2 c0 hc0)
    rw [heq, allOkB, Bool.and_eq_true, Bool.and_eq_true, Bool.and_eq_true]
    refine ⟨⟨⟨hm.1.1.1, ?_⟩, ?_⟩, ?_⟩
    · rw [hasFileB_iff, ← heq, pFilesM_collapseByTokensP]
      have hf := hm.1.1.2
      rw [hasFileB_iff] at hf
      exact hf
    · cases hR : (scanMerge (ms.attach.map fun c => collapseByTokensP c.1) [] fs t).2.1 with
      | cons f fs2 => simp
      | nil =>
        obtain ⟨hfs, hcnt⟩ := scanMerge_count
          (ms.attach.map fun c => collapseByTokensP c.1) [] fs t hksOk hR
        have hkslen : (ms.attach.map fun c => collapseByTokensP c.1).length = ms.length := by
          simp
        have hms1 : ¬(ms.length = 1) := by
          have := hm.1.2
          intro habs
          simp [habs, hfs] at this
        rcases Nat.lt_or_ge ms.length 2 with hlt | hge
        · have hms0 : ms.length = 0 := by omega
          have hksnil : (ms.attach.map fun c => collapseByTokensP c.1) = [] := by
            rw [← List.length_eq_zero, hkslen]
            exact hms0
          rw [hksnil, scanMerge]
          simp
        · have : 2 ≤ (scanMerge (ms.attach.map fun c => collapseByTokensP c.1)
              [] fs t).1.length := by omega
          simp only [Bool.not_eq_true', Bool.and_eq_false_iff, decide_eq_false_iff_not]
          left
          omega
    · rw [allOkListB_iff]
      exact scanMerge_allOk _ [] fs t hksOk (by simp)

theorem collapseByTokensP_root (m : PModule) (hname : m.name = ".")
    (hkids : ∀ c ∈ m.modules, allOkB c = true) :
    (collapseByTokensP m).name = "." ∧
      ∀ c ∈ (collapseByTokensP m).modules, allOkB c = true := by
  cases m with
  | mk n ms fs a t h =>
    have hn : n = "." := by simpa [PModule.name] using hname
    have heq : collapseByTokensP (.mk n ms fs a t h) =
        .mk n (scanMerge (ms.attach.map fun c => collapseByTokensP c.1) [] fs t).1
          (scanMerge (ms.attach.map fun c => collapseByTokensP c.1) [] fs t).2.1 a
          (scanMerge (ms.attach.map fun c => collapseByTokensP c.1) [] fs t).2.2 h := by
      rw [collapseByTokensP]
    rw [heq]
    refine ⟨by simpa [PModule.name] using hn, ?_⟩
    intro c hc
    simp only [PModule.modules] at hc
    refine scanMerge_allOk _ [] fs t ?_ (by simp) c hc
    intro c2 hc2
    rw [List.attach_map_val ms collapseByTokensP] at hc2
    obtain ⟨c0, hc0, rfl⟩ := List.mem_map.mp hc2
    exact collapseByTokensP_allOk c0 (hkids c0 (by simpa [PModule.modules] using hc0))

/-- C8: the FolderCollapser postcondition holds on the final tree of the
project `BuildTree`: for clean relative-path entries, every strictly
contained (non-root) module of a successfully built tree has either more or
fewer than exactly one child module, or at least one file of its own — the
degenerate single-child-no-files shape never survives `collapseModules`
followed by the token rebalancing and rebuilds. -/
theorem claim_C8_shape (fs_ : GoFS) (entries : List String) (t : PModule)
    (hclean : ∀ e ∈ entries, cleanEntry e)
    (hb : buildTreeP fs_ entries = .ok t) :
    ∀ d : PModule, PStrictIn d t → ¬(d.modules.length = 1 ∧ d.files = []) := by
  rw [buildTreeP] at hb
  match hph : buildPhase1 fs_ entries with
  | .error msg =>
    rw [hph] at hb
    simp only [Bind.bind, Except.bind] at hb
    cases hb
  | .ok root =>
    rw [hph] at hb
    simp only [Bind.bind, Except.bind, pure, Except.pure, Except.ok.injEq] at hb
    subst hb
    rw [buildPhase1] at hph
    have h1 : root.name = "." ∧ ∀ c ∈ root.modules, preOkB c = true := by
      refine phase1_root_ok fs_ entries _ hclean ?_ root hph
      intro r hr
      cases hr
      exact ⟨by simp [PModule.name], by simp [PModule.modules]⟩
    have h2 := collapseModulesP_root root h1.1 h1.2
    have h3 := rebuild_root _ h2.1 h2.2
    have h4 := collapseByTokensP_root _ h3.1 h3.2
    have h5 := rebuild_root _ h4.1 h4.2
    intro d hd
    obtain ⟨c, hc, hocc⟩ := hd
    have hall : allOkB d = true := allOkB_occurs hocc (h5.2 c hc)
    cases d with
    | mk n ms fsd a t h =>
      rw [allOkB, Bool.and_eq_true, Bool.and_eq_true, Bool.and_eq_true] at hall
      rintro ⟨hlen, hfs⟩
      have hshape := hall.1.2
      simp only [PModule.modules] at hlen
      simp only [PModule.files] at hfs
      simp [hlen, hfs] at hshape

def fsC8 : GoFS :=
  { stat := fun p => if p = "a/f.txt" then some false else none
    read := fun _ => some [1, 2, 3, 4, 5]
    tok := fun c => c.length
    md5f := fun _ => "m" }

def frC8 : FileRef := { name := "f.txt", tokenCount := 5, md5 := "m" }

def tC8 : PModule := .mk "." [] [frC8] none 5 ""

/-- Witness for C8 at a concrete filesystem and entry list: the single
clean entry `"a/f.txt"` builds successfully and the resulting tree has no
strictly contained degenerate module. -/
theorem claim_C8_shape_witness :
    (∀ e ∈ ["a/f.txt"], cleanEntry e) ∧
    buildTreeP fsC8 ["a/f.txt"] = .ok tC8 ∧
    ∀ d : PModule, PStrictIn d tC8 → ¬(d.modules.length = 1 ∧ d.files = []) := by
  have hclean : ∀ e ∈ ["a/f.txt"], cleanEntry e := by
    intro e he
    rw [List.mem_singleton] at he
    subst he
    exact ⟨by decide, by decide⟩
  have hb : buildTreeP fsC8 ["a/f.txt"] = .ok tC8 := by
    simp [buildTreeP, buildPhase1, phase1Step, newFileRefFromFS, newFileRef, splitPath,
      splitChars, navInsert, navChildren, freshChain, collapseModulesP, collapseLoopP,
      rebuildWithNewModule, newModule, collapseByTokensP, scanMerge, fsC8, frC8, tC8,
      List.attach, List.attachWith, List.pmap, PModule.name, PModule.modules,
      PModule.files, PModule.annotation, PModule.localTokenCount, PModule.md5,
      FileRef.tokenCount, minTokenCountPerModule, maxTokenCountPerModule,
      Bind.bind, Except.bind, pure, Except.pure]
  exact ⟨hclean, hb, claim_C8_shape fsC8 ["a/f.txt"] tC8 hclean hb⟩

end Vyb